import Mathlib

/-!
# Lazy-pages interval bookkeeping of `criu/uffd.c`

A shallow embedding of the interval list (`struct lazy_iovec`), its
construction (`collect_lazy_iovecs`), its update on delivery
(`update_lazy_iovecs`), page installation (`uffd_copy`, `uffd_zero`,
`complete_page_fault`), the page handlers (`uffd_seek_or_zero_pages`,
`uffd_handle_pages`, `handle_remaining_pages`) and the request loop
(`lazy_pages_summary`, `handle_requests`, `cr_lazy_pages`).

Conventions.
* `unsigned long` / `__u64` values are `Nat` and every C operation on them is
  taken modulo `2^64`; `int` values are `Int` and every narrowing store goes
  through `to_int` (two's complement truncation to 32 bits); `__s64` values are
  `Int`.
* `PAGE_SIZE` and `page_size()` come from `page.h`, which is not part of the
  sources; both are the host page size, an `unsigned long`, and are one
  parameter `page_size` here.
* The intrusive list `struct list_head` is a `List`, in list order.
* Calls that leave the file (ioctl, the page reader, the allocator, the epoll
  loop) take their result from an explicit argument, so every theorem
  quantifies over all behaviours of the kernel, the reader and the allocator.
-/

namespace Uffd

/-! ## Machine integers -/

/-- Number of values of an `unsigned long` (64 bits). -/
def U64 : Nat := 18446744073709551616

/-- Truncation of an integer to `int` (32 bits, two's complement). -/
def to_int (x : Int) : Int := (x + 2147483648) % 4294967296 - 2147483648

/-- Conversion of an integer to `unsigned long`. -/
def to_ulong (x : Int) : Nat := (x % 18446744073709551616).toNat

/-! ## The interval list and its update on delivery -/

/-- The `struct lazy_iovec`: the range `[base, base + len)`. -/
structure lazy_iovec where
  base : Nat
  len : Nat
deriving DecidableEq, Repr

/-- The loop `list_for_each_entry_safe` of `update_lazy_iovecs`, on the part of
the list not yet visited. `alloc_ok` tells whether `xzalloc` succeeds. The
result is the return value and the list left behind. -/
def update_lazy_iovecs (alloc_ok : Bool) :
    List lazy_iovec → Nat → Int → Int × List lazy_iovec
  | [], _, _ => (0, [])
  | lazy_iov :: rest, addr, len =>
    let start := lazy_iov.base
    let e := (start + lazy_iov.len) % U64
    if len ≤ 0 then (0, lazy_iov :: rest)
    else if addr < start ∨ addr ≥ e then
      let r := update_lazy_iovecs alloc_ok rest addr len
      (r.1, lazy_iov :: r.2)
    else if (addr + to_ulong len) % U64 < e then
      if addr = start then
        (0, { base := (lazy_iov.base + to_ulong len) % U64,
              len := (lazy_iov.len + U64 - to_ulong len) % U64 } :: rest)
      else
        let shrunk : lazy_iovec :=
          { base := lazy_iov.base, len := (lazy_iov.len + U64 - (e + U64 - addr) % U64) % U64 }
        if alloc_ok then
          (0, shrunk ::
              { base := (addr + to_ulong len) % U64,
                len := (e + U64 - (addr + to_ulong len) % U64) % U64 } :: rest)
        else (-1, shrunk :: rest)
    else
      let len1 := to_int (((to_ulong len + U64 - (e + U64 - addr) % U64) % U64 : Nat) : Int)
      if addr = start then
        update_lazy_iovecs alloc_ok rest e len1
      else
        let r := update_lazy_iovecs alloc_ok rest e len1
        (r.1, { base := lazy_iov.base,
                len := (lazy_iov.len + U64 - (e + U64 - addr) % U64) % U64 } :: r.2)

/-! ## Building the interval list from the pagemap and the VMAs -/

/-- A `VmaEntry` of the mm image: the mapping `[start, end)`. -/
structure VmaEntry where
  start : Nat
  «end» : Nat
deriving DecidableEq, Repr

/-- A `PagemapEntry` of the pagemap image: `nr_pages` pages from `vaddr` on,
with the two flags the page server reads. -/
structure PagemapEntry where
  vaddr : Nat
  nr_pages : Nat
  is_lazy : Bool
  is_zero : Bool
deriving DecidableEq, Repr

/-- Modelled from the spec: the predicate `pagemap_lazy` of `pagemap.h`, which is
not part of the sources: the flag distinguishing lazy entries from others. -/
def pagemap_lazy (pe : PagemapEntry) : Bool := pe.is_lazy

/-- Modelled from the spec: the predicate `pagemap_zero` of `pagemap.h`, which is
not part of the sources: the flag distinguishing zero pages from stored ones. -/
def pagemap_zero (pe : PagemapEntry) : Bool := pe.is_zero

/-- What the VMA loop of `collect_lazy_iovecs` leaves behind: the intervals it
appended with `list_add_tail`, in order, the new `max_iov_len`, the number of
`xzalloc` calls that can still succeed, and `mm->vmas` from the final `n_vma` on. -/
structure vma_loop_result where
  added : List lazy_iovec
  max_iov_len : Int
  heap : Nat
  vmas : List VmaEntry
deriving DecidableEq, Repr

/-- The loop `for (; n_vma < mm->n_vmas; n_vma++)` of `collect_lazy_iovecs` for
one lazy pagemap entry `[start, e)`. The list is `mm->vmas` from `n_vma` on;
`heap` is the number of `xzalloc` calls that succeed before one fails. `none`
is the exit through `free_iovs`. -/
def collect_vmas : List VmaEntry → Nat → Nat → Int → Nat → Option vma_loop_result
  | [], _, _, max_iov_len, heap =>
    some { added := [], max_iov_len := max_iov_len, heap := heap, vmas := [] }
  | vma :: rest, start, e, max_iov_len, heap =>
    if start ≥ vma.«end» then collect_vmas rest start e max_iov_len heap
    else if heap = 0 then none
    else
      let len := (min e vma.«end» + U64 - start) % U64
      let max1 := if len > to_ulong max_iov_len then to_int (len : Int) else max_iov_len
      if e ≤ vma.«end» then
        some { added := [{ base := start, len := len }], max_iov_len := max1,
               heap := heap - 1, vmas := vma :: rest }
      else
        match collect_vmas rest vma.«end» e max1 (heap - 1) with
        | none => none
        | some r => some { r with added := { base := start, len := len } :: r.added }

/-- What the pagemap loop of `collect_lazy_iovecs` leaves behind: the intervals
appended to `lpi->iovs`, `nr_pages` and `max_iov_len`. -/
structure pagemap_loop_result where
  added : List lazy_iovec
  nr_pages : Int
  max_iov_len : Int
deriving DecidableEq, Repr

/-- The loop `while (pr->advance(pr))` of `collect_lazy_iovecs` over the pagemap
records still to come. `page_size` is the value of `page_size()`, an
`unsigned long`. `none` is the exit through `free_iovs`. -/
def collect_pagemap (page_size : Nat) :
    List PagemapEntry → List VmaEntry → Int → Int → Nat → Option pagemap_loop_result
  | [], _, nr_pages, max_iov_len, _ =>
    some { added := [], nr_pages := nr_pages, max_iov_len := max_iov_len }
  | pe :: pes, vmas, nr_pages, max_iov_len, heap =>
    if !pagemap_lazy pe then collect_pagemap page_size pes vmas nr_pages max_iov_len heap
    else
      let start := pe.vaddr
      let e := (start + (pe.nr_pages * page_size) % U64) % U64
      let nr_pages1 := to_int (nr_pages + pe.nr_pages)
      match collect_vmas vmas start e max_iov_len heap with
      | none => none
      | some r =>
        match collect_pagemap page_size pes r.vmas nr_pages1 r.max_iov_len r.heap with
        | none => none
        | some q => some { q with added := r.added ++ q.added }

/-- The result of `collect_lazy_iovecs`: the return value, the list `lpi->iovs`
and the size of the buffer `lpi->buf`. -/
structure collect_result where
  ret : Int
  iovs : List lazy_iovec
  buf_size : Nat
deriving DecidableEq, Repr

/-- The function `collect_lazy_iovecs` on a task whose list is empty. `mm` is
the result of `init_mm_entry` (the VMAs of the image, or `none` when it cannot
be read), `pagemap` the records `pr->advance` steps through, `heap` the number
of `xzalloc` calls that succeed, `memalign_ok` whether `posix_memalign`
succeeds. After `free_iovs` no interval is left. -/
def collect_lazy_iovecs (page_size : Nat) (mm : Option (List VmaEntry))
    (pagemap : List PagemapEntry) (heap : Nat) (memalign_ok : Bool) : collect_result :=
  match mm with
  | none => { ret := -1, iovs := [], buf_size := 0 }
  | some vmas =>
    match collect_pagemap page_size pagemap vmas 0 0 heap with
    | none => { ret := -1, iovs := [], buf_size := 0 }
    | some q =>
      if memalign_ok then
        { ret := q.nr_pages, iovs := q.added, buf_size := to_ulong q.max_iov_len }
      else { ret := -1, iovs := [], buf_size := 0 }

/-! ## Task state and page installation -/

/-- The errno value `EEXIST` of `<errno.h>` on Linux. -/
def EEXIST : Int := 17

/-- An ioctl issued on the userfault descriptor of a task: `UFFDIO_COPY` with
its `dst` and `len` (the source is the task buffer, the mode is 0), or
`UFFDIO_ZEROPAGE` with its `range.start` and `range.len` (mode 0). -/
inductive uffd_ioctl where
  | copy (dst len : Nat)
  | zeropage (start len : Nat)
deriving DecidableEq, Repr

/-- The fields of `struct lazy_pages_info` the bookkeeping reads and writes.
`buf_size` is the size of the allocation behind `buf`; `ioctls` records, in
order, the ioctls issued on `lpfd.fd`. -/
structure lazy_pages_info where
  pid : Int
  iovs : List lazy_iovec
  total_pages : Nat
  copied_pages : Nat
  buf_size : Nat
  remaining : Bool
  ioctls : List uffd_ioctl
deriving DecidableEq, Repr

/-- The task state `lpi_init` returns: zeroed, with an empty interval list. -/
def lpi_init : lazy_pages_info :=
  { pid := 0, iovs := [], total_pages := 0, copied_pages := 0, buf_size := 0,
    remaining := false, ioctls := [] }

/-- The part of `ud_open` that follows the allocation of the task state. `recv_ret`
and `pid` are what `recv` returns and stores, `fd` what `recv_fd` returns,
`open_ret` what `open_page_read` returns; the other arguments are those of
`collect_lazy_iovecs`. The result is the return value and the task that was
linked into `lpis`, if any. -/
def ud_open (page_size : Nat) (recv_ret pid fd open_ret : Int) (mm : Option (List VmaEntry))
    (pagemap : List PagemapEntry) (heap : Nat) (memalign_ok : Bool) :
    Int × Option lazy_pages_info :=
  let lpi := { lpi_init with pid := pid }
  if recv_ret ≠ 4 then (-1, none)
  else if pid < 0 then (0, none)
  else if fd < 0 then (-1, none)
  else if open_ret ≤ 0 then (-1, none)
  else
    let c := collect_lazy_iovecs page_size mm pagemap heap memalign_ok
    if c.ret < 0 then (-1, none)
    else (0, some { lpi with iovs := c.iovs, buf_size := c.buf_size,
                             total_pages := to_ulong c.ret })

/-- The function `uffd_copy`. `rc` is what `ioctl(UFFDIO_COPY)` returns and
`copy` the value the kernel leaves in `uffdio_copy.copy`. -/
def uffd_copy (page_size : Nat) (lpi : lazy_pages_info) (address : Nat) (nr_pages : Int)
    (rc copy : Int) : Int × lazy_pages_info :=
  let len := to_ulong (nr_pages * page_size)
  let lpi1 := { lpi with ioctls := lpi.ioctls ++ [uffd_ioctl.copy address len] }
  if rc ≠ 0 then
    if copy ≠ -EEXIST then (-1, lpi1)
    else (0, { lpi1 with copied_pages := to_ulong (lpi1.copied_pages + nr_pages) })
  else if to_ulong copy ≠ len then (-1, lpi1)
  else (0, { lpi1 with copied_pages := to_ulong (lpi1.copied_pages + nr_pages) })

/-- The function `complete_page_fault`. `rc` and `copy` are the outcome of the
`UFFDIO_COPY` ioctl, `alloc_ok` tells whether `xzalloc` succeeds. -/
def complete_page_fault (page_size : Nat) (lpi : lazy_pages_info) (vaddr : Nat) (nr : Int)
    (rc copy : Int) (alloc_ok : Bool) : Int × lazy_pages_info :=
  let r := uffd_copy page_size lpi vaddr nr rc copy
  if r.1 ≠ 0 then (-1, r.2)
  else if r.2.remaining then (0, r.2)
  else
    let u := update_lazy_iovecs alloc_ok r.2.iovs vaddr
      (to_int ((to_ulong (nr * page_size) : Nat) : Int))
    (u.1, { r.2 with iovs := u.2 })

/-- The function `uffd_zero`. `rc` is what `ioctl(UFFDIO_ZEROPAGE)` returns. -/
def uffd_zero (page_size : Nat) (lpi : lazy_pages_info) (address : Nat) (nr_pages : Int)
    (rc : Int) : Int × lazy_pages_info :=
  let len := to_ulong (page_size * nr_pages)
  let lpi1 := { lpi with ioctls := lpi.ioctls ++ [uffd_ioctl.zeropage address len] }
  if rc ≠ 0 then (-1, lpi1) else (0, lpi1)

/-! ## The page handlers and the drain of the remaining pages -/

/-- One call of the callback `pr->io_complete` (`uffd_io_complete`) made by the
page reader, with the outcome of the ioctl and of the allocation inside it. -/
structure io_completion where
  vaddr : Nat
  nr : Int
  rc : Int
  copy : Int
  alloc_ok : Bool
deriving DecidableEq, Repr

/-- Modelled from the spec: the page reader of `pagemap.c` and the kernel, which
are not part of the sources, during one call of `uffd_handle_pages`:
`seek_ret` is what `seek_pagemap` returns (whether a record covers the address),
`pe` the record the reader is then positioned at, `zero_rc` what
`ioctl(UFFDIO_ZEROPAGE)` returns, `read_ret` what `read_pages` returns, and
`completions` the `io_complete` calls `read_pages` makes before it returns. -/
structure reader_env where
  seek_ret : Int
  pe : PagemapEntry
  zero_rc : Int
  read_ret : Int
  completions : List io_completion
deriving DecidableEq, Repr

/-- The function `uffd_seek_or_zero_pages`. -/
def uffd_seek_or_zero_pages (page_size : Nat) (lpi : lazy_pages_info) (address : Nat)
    (nr : Int) (env : reader_env) : Int × lazy_pages_info :=
  let ret := env.seek_ret
  if ret = 0 then (0, lpi)
  else if pagemap_zero env.pe then uffd_zero page_size lpi address nr env.zero_rc
  else (1, lpi)

/-- The task state after the `io_complete` calls of one `read_pages`. -/
def run_completions (page_size : Nat) (lpi : lazy_pages_info) (cs : List io_completion) :
    lazy_pages_info :=
  cs.foldl (fun lpi c =>
    (complete_page_fault page_size lpi c.vaddr c.nr c.rc c.copy c.alloc_ok).2) lpi

/-- The function `uffd_handle_pages`. -/
def uffd_handle_pages (page_size : Nat) (lpi : lazy_pages_info) (address : Nat) (nr : Int)
    (_flags : Nat) (env : reader_env) : Int × lazy_pages_info :=
  let r := uffd_seek_or_zero_pages page_size lpi address nr env
  if r.1 ≤ 0 then r
  else
    let lpi1 := run_completions page_size r.2 env.completions
    let ret := env.read_ret
    if ret ≤ 0 then (ret, lpi1) else (0, lpi1)

/-- The loop `list_for_each_entry` of `handle_remaining_pages` over the intervals
still to visit; `envs i` is the environment of the `i`-th call. The list is not
modified while `remaining` is set, so it is walked as it was on entry. -/
def handle_remaining_loop (page_size : Nat) :
    List lazy_iovec → lazy_pages_info → (Nat → reader_env) → Nat → Int × lazy_pages_info
  | [], lpi, _, _ => (0, lpi)
  | lazy_iov :: rest, lpi, envs, i =>
    let nr_pages := to_int ((lazy_iov.len / page_size : Nat) : Int)
    let r := uffd_handle_pages page_size lpi lazy_iov.base nr_pages 0 (envs i)
    if r.1 < 0 then (-1, r.2)
    else handle_remaining_loop page_size rest r.2 envs (i + 1)

/-- The function `handle_remaining_pages`. -/
def handle_remaining_pages (page_size : Nat) (lpi : lazy_pages_info)
    (envs : Nat → reader_env) : Int × lazy_pages_info :=
  let lpi1 := { lpi with remaining := true }
  handle_remaining_loop page_size lpi1.iovs lpi1 envs 0

/-! ## The request loop and the server -/

/-- The function `lazy_pages_summary`. -/
def lazy_pages_summary (lpi : lazy_pages_info) : Int :=
  if lpi.copied_pages ≠ lpi.total_pages ∧ lpi.total_pages > 0 then 1 else 0

/-- The first loop of `handle_requests` over the tasks still to drain, the
`k`-th task of `lpis` first. The result tells whether the loop ran to its end
(`false`: it left through `goto out`), the value of `ret` and the tasks. -/
def drain_tasks (page_size : Nat) (envs : Nat → Nat → reader_env) :
    List lazy_pages_info → Nat → Int → Bool × Int × List lazy_pages_info
  | [], _, ret => (true, ret, [])
  | lpi :: rest, k, _ =>
    let r := handle_remaining_pages page_size lpi (envs k)
    if r.1 < 0 then (false, 1, r.2 :: rest)
    else
      let t := drain_tasks page_size envs rest (k + 1) r.1
      (t.1, t.2.1, r.2 :: t.2.2)

/-- The second loop of `handle_requests`: `ret += lazy_pages_summary(lpi)`. -/
def sum_summaries (ret : Int) (lpis : List lazy_pages_info) : Int :=
  lpis.foldl (fun ret lpi => to_int (ret + lazy_pages_summary lpi)) ret

/-- The function `handle_requests`. `rfds_ret` is what `epoll_run_rfds` returns
and `lpis` the tasks as it leaves them. The result is the return value and the
tasks at that point. -/
def handle_requests (page_size : Nat) (rfds_ret : Int) (lpis : List lazy_pages_info)
    (envs : Nat → Nat → reader_env) : Int × List lazy_pages_info :=
  if rfds_ret < 0 then (rfds_ret, lpis)
  else
    let t := drain_tasks page_size envs lpis 0 rfds_ret
    if t.1 then (sum_summaries t.2.1 t.2.2, t.2.2)
    else (t.2.1, t.2.2)

/-- The task has not received all its pages, as `lazy_pages_summary` tests it. -/
def mismatched (lpi : lazy_pages_info) : Bool :=
  decide (lpi.copied_pages ≠ lpi.total_pages ∧ lpi.total_pages > 0)

/-- What the collaborators of `cr_lazy_pages` return: each field is the return
value of the call of that name (`cr_daemon` for `daemon_ret`), `pidfile` and
`use_page_server` are the options `opts.pidfile` and `opts.use_page_server`. -/
structure server_env where
  check_for_uffd : Int
  prepare_dummy_pstree : Int
  prepare_lazy_socket : Int
  daemon_ret : Int
  pidfile : Bool
  write_pidfile : Int
  close_status_fd : Int
  epoll_prepare : Int
  prepare_uffds : Int
  use_page_server : Bool
  connect_to_page_server_to_recv : Int
  epoll_run_rfds : Int
deriving DecidableEq, Repr

/-- The function `cr_lazy_pages`. `lpis` are the tasks as `epoll_run_rfds` leaves
them. -/
def cr_lazy_pages (page_size : Nat) (daemon : Bool) (env : server_env)
    (lpis : List lazy_pages_info) (envs : Nat → Nat → reader_env) : Int :=
  if env.check_for_uffd ≠ 0 then -1
  else if env.prepare_dummy_pstree ≠ 0 then -1
  else if env.prepare_lazy_socket < 0 then -1
  else if daemon = true ∧ env.daemon_ret = -1 then -1
  else if daemon = true ∧ env.daemon_ret > 0 then
    if env.pidfile = true ∧ env.write_pidfile = -1 then -1 else 0
  else if env.close_status_fd ≠ 0 then -1
  else if env.epoll_prepare < 0 then -1
  else if env.prepare_uffds ≠ 0 then -1
  else if env.use_page_server = true ∧ env.connect_to_page_server_to_recv ≠ 0 then -1
  else (handle_requests page_size env.epoll_run_rfds lpis envs).1

/-- The server gets as far as `handle_requests`: every step before it succeeds
and the process is not the parent of the daemon. -/
def reaches_requests (daemon : Bool) (env : server_env) : Prop :=
  env.check_for_uffd = 0 ∧ env.prepare_dummy_pstree = 0 ∧ 0 ≤ env.prepare_lazy_socket ∧
  (daemon = true → env.daemon_ret = 0) ∧ env.close_status_fd = 0 ∧ 0 ≤ env.epoll_prepare ∧
  env.prepare_uffds = 0 ∧
  (env.use_page_server = true → env.connect_to_page_server_to_recv = 0)

/-! ## Properties of interval lists, pagemaps and VMA lists -/

/-- Address `a` lies in the range of `iov`. -/
def lazy_iovec.mem (iov : lazy_iovec) (a : Nat) : Prop :=
  iov.base ≤ a ∧ a < iov.base + iov.len

/-- The covered address set of an interval list. -/
def covered (l : List lazy_iovec) (a : Nat) : Prop :=
  ∃ iov ∈ l, iov.mem a

/-- The sum of the lengths of the intervals. -/
def total_len (l : List lazy_iovec) : Nat := (l.map lazy_iovec.len).sum

/-- The interval-coverage equation of a task: the sum of the lengths of its
intervals plus `copied_pages * page_size` equals `total_pages * page_size`. -/
def coverage_invariant (page_size : Nat) (lpi : lazy_pages_info) : Prop :=
  total_len lpi.iovs + lpi.copied_pages * page_size = lpi.total_pages * page_size

/-- Every interval ends below `2^64`, so that `base + len` is an `unsigned long`. -/
def representable (l : List lazy_iovec) : Prop :=
  ∀ iov ∈ l, iov.base + iov.len < U64

/-- The list is sorted by `base`. -/
def sorted_by_base (l : List lazy_iovec) : Prop :=
  l.Pairwise (fun x y => x.base ≤ y.base)

/-- No address lies in two intervals of the list. -/
def non_overlapping (l : List lazy_iovec) : Prop :=
  l.Pairwise (fun x y => ∀ a, ¬ (x.mem a ∧ y.mem a))

/-- The invariant of an interval list: every interval is non-empty, at most `M`
bytes long and ends at or below `B`, and every interval ends at or before the
base of each later one. -/
def iov_inv (B M : Nat) (l : List lazy_iovec) : Prop :=
  (∀ x ∈ l, 0 < x.len ∧ x.len ≤ M ∧ x.base + x.len ≤ B) ∧
  l.Pairwise (fun x y => x.base + x.len ≤ y.base)

/-- The pagemap is sorted by address: every record ends at or before the start
of each later one. -/
def pagemap_sorted (page_size : Nat) (pagemap : List PagemapEntry) : Prop :=
  pagemap.Pairwise (fun a b => a.vaddr + a.nr_pages * page_size ≤ b.vaddr)

/-- Every lazy record of the pagemap holds at least one page and ends at or
below `B`. -/
def pagemap_bounded (page_size B : Nat) (pagemap : List PagemapEntry) : Prop :=
  ∀ pe ∈ pagemap, pagemap_lazy pe = true →
    0 < pe.nr_pages ∧ pe.vaddr + pe.nr_pages * page_size ≤ B

/-- Every lazy record of the pagemap is shorter than `2^31` bytes. -/
def pagemap_below_2G (page_size : Nat) (pagemap : List PagemapEntry) : Prop :=
  ∀ pe ∈ pagemap, pagemap_lazy pe = true → pe.nr_pages * page_size < 2147483648

/-- The value `x` is in the range of an `int`. -/
def is_int (x : Int) : Prop := -2147483648 ≤ x ∧ x < 2147483648

/-- The list left by a sequence of `update_lazy_iovecs` calls; a call is the
address, the length and whether `xzalloc` succeeds in it. -/
def update_calls (l : List lazy_iovec) (calls : List (Nat × Int × Bool)) : List lazy_iovec :=
  calls.foldl (fun l c => (update_lazy_iovecs c.2.2 l c.1 c.2.1).2) l

/-- The list is strictly sorted by `base`. -/
def strictly_sorted_by_base (l : List lazy_iovec) : Prop :=
  l.Pairwise (fun x y => x.base < y.base)

/-- The VMA list is sorted by address: every VMA is non-empty and ends at or
before the start of each later one. -/
def vmas_sorted (vmas : List VmaEntry) : Prop :=
  vmas.Pairwise (fun a b => a.«end» ≤ b.start) ∧ ∀ v ∈ vmas, v.start < v.«end»

/-- Every address of `[lo, hi)` lies in a VMA of the list. -/
def covered_by_vmas (vmas : List VmaEntry) (lo hi : Nat) : Prop :=
  ∀ a, lo ≤ a → a < hi → ∃ v ∈ vmas, v.start ≤ a ∧ a < v.«end»

/-- Every lazy record of the pagemap is covered by the VMAs. -/
def pagemap_covered (page_size : Nat) (vmas : List VmaEntry) (pm : List PagemapEntry) : Prop :=
  ∀ pe ∈ pm, pagemap_lazy pe = true →
    covered_by_vmas vmas pe.vaddr (pe.vaddr + pe.nr_pages * page_size)

/-- The number of pages of the lazy records of the pagemap. -/
def lazy_pages (pm : List PagemapEntry) : Nat :=
  ((pm.filter pagemap_lazy).map PagemapEntry.nr_pages).sum

/-- The interval lies within the VMA. -/
def within_vma (iov : lazy_iovec) (v : VmaEntry) : Prop :=
  v.start ≤ iov.base ∧ iov.base + iov.len ≤ v.«end»

/-! ## Specification of the interval list of a task -/

/-- Specification: the VMA ends that fall strictly inside `(s, e)`, in list order. -/
def cut_points (vmas : List VmaEntry) (s e : Nat) : List Nat :=
  (vmas.map VmaEntry.«end»).filter (fun c => decide (s < c ∧ c < e))

/-- Specification: the pieces of `[s, e)` cut at the points `cuts`: each piece
runs from the previous cut (or `s`) to the next cut (or `e`). -/
def cut_at : Nat → List Nat → Nat → List lazy_iovec
  | s, [], e => [{ base := s, len := e - s }]
  | s, c :: cs, e => { base := s, len := c - s } :: cut_at c cs e

/-- Specification: the pieces of one pagemap record, cut at every VMA end that
falls strictly inside it. -/
def spec_pieces (page_size : Nat) (vmas : List VmaEntry) (pe : PagemapEntry) :
    List lazy_iovec :=
  cut_at pe.vaddr (cut_points vmas pe.vaddr (pe.vaddr + pe.nr_pages * page_size))
    (pe.vaddr + pe.nr_pages * page_size)

/-- Specification: the interval list of a task: the pieces of its lazy pagemap
records, in address order, and nothing for the other records. -/
def spec_iovs (page_size : Nat) (vmas : List VmaEntry) (pm : List PagemapEntry) :
    List lazy_iovec :=
  (pm.filter pagemap_lazy).flatMap (spec_pieces page_size vmas)

/-! ## Concrete tasks, images and environments -/

/-- A task with one undelivered page at `0x5000`. -/
def zero_page_task : lazy_pages_info :=
  { lpi_init with pid := 100, iovs := [⟨0x5000, 0x1000⟩], total_pages := 1 }

/-- A page reader that finds no record for the address. -/
def no_record_env : reader_env :=
  { seek_ret := 0, pe := ⟨0, 0, false, false⟩, zero_rc := 0, read_ret := 0, completions := [] }

/-- A task with one undelivered page at `0x1000`. -/
def one_page_task : lazy_pages_info :=
  { lpi_init with pid := 100, iovs := [⟨0x1000, 0x1000⟩], total_pages := 1 }

/-- The task `one_page_task` in the drain phase. -/
def draining_task : lazy_pages_info := { one_page_task with remaining := true }

/-- The task `one_page_task` after its page was delivered in the fault-driven
phase: no interval is left and one page is counted. -/
def delivered_task : lazy_pages_info :=
  { one_page_task with iovs := [], copied_pages := 1 }

/-- A page reader that finds the record of `0x1000` and fails to read it. -/
def failing_read_env : Nat → Nat → reader_env := fun _ _ =>
  { seek_ret := 1, pe := ⟨0x1000, 1, true, false⟩, zero_rc := 0, read_ret := -1,
    completions := [] }

/-- A page reader that finds the record of `0x1000`, reads it and completes the
request at once, the `UFFDIO_COPY` inside copying the whole page. -/
def good_read_env : Nat → Nat → reader_env := fun _ _ =>
  { seek_ret := 1, pe := ⟨0x1000, 1, true, false⟩, zero_rc := 0, read_ret := 1,
    completions := [⟨0x1000, 1, 0, 4096, true⟩] }

/-- A page reader that serves the first task as `good_read_env` does and finds no
record for the addresses of the other tasks. -/
def mixed_read_env : Nat → Nat → reader_env := fun k i =>
  if k = 0 then good_read_env k i else no_record_env

/-- A server environment in which every step before `handle_requests` succeeds
and `epoll_run_rfds` ends by timeout. -/
def quiet_server : server_env :=
  { check_for_uffd := 0, prepare_dummy_pstree := 0, prepare_lazy_socket := 3,
    daemon_ret := 0, pidfile := false, write_pidfile := 0, close_status_fd := 0,
    epoll_prepare := 4, prepare_uffds := 0, use_page_server := false,
    connect_to_page_server_to_recv := 0, epoll_run_rfds := 0 }

/-- An image with one VMA of 4 GiB and 4 KiB. -/
def big_vmas : List VmaEntry := [⟨0x100000000, 0x200001000⟩]

/-- A pagemap with one lazy record of `2^20` pages (4 GiB) inside that VMA. -/
def big_pagemap : List PagemapEntry := [⟨0x100000000, 0x100000, true, false⟩]

/-- The task `ud_open` sets up for `big_vmas` and `big_pagemap`: one interval of
`2^32` bytes, `2^20` pages to deliver, a scratch buffer of size 0. -/
def big_task : lazy_pages_info :=
  { lpi_init with pid := 100, iovs := [⟨0x100000000, 0x100000000⟩],
                  total_pages := 0x100000, buf_size := 0 }

/-- A page reader that finds the record of `big_pagemap`, reads the pages asked
for and completes the request at once, the `UFFDIO_COPY` inside copying all of
them. -/
def big_read_env : Nat → reader_env := fun _ =>
  { seek_ret := 1, pe := ⟨0x100000000, 0x100000, true, false⟩, zero_rc := 0, read_ret := 1,
    completions := [⟨0x100000000, 0x100000, 0, 0x100000000, true⟩] }

/-- The two adjacent VMAs `[0x1000, 0x2000)` and `[0x2000, 0x3000)`. -/
def two_vmas : List VmaEntry := [⟨0x1000, 0x2000⟩, ⟨0x2000, 0x3000⟩]

/-- A pagemap with one lazy record of two pages at `0x1000`. -/
def two_page_pagemap : List PagemapEntry := [⟨0x1000, 2, true, false⟩]

/-- An image whose only VMA is `[0x2000, 0x3000)`. -/
def hole_vmas : List VmaEntry := [⟨0x2000, 0x3000⟩]

/-! ## Machine arithmetic -/

theorem to_ulong_natCast (n : Nat) (h : n < U64) : to_ulong (n : Int) = n := by
  unfold to_ulong; unfold U64 at h; omega

theorem to_int_natCast (n : Nat) (h : n < 2147483648) : to_int (n : Int) = n := by
  unfold to_int; omega

theorem to_int_lt (x : Int) : to_int x < 2147483648 := by
  unfold to_int; omega

theorem add_sub_mod (a b : Nat) (hb : b ≤ a) (ha : a < U64) :
    (a + U64 - b) % U64 = a - b := by
  unfold U64 at *; omega

/-! ## The covered set and the update of the list on delivery -/

theorem covered_nil (a : Nat) : ¬ covered [] a := by simp [covered]

theorem covered_cons (x : lazy_iovec) (l : List lazy_iovec) (a : Nat) :
    covered (x :: l) a ↔ x.mem a ∨ covered l a := by simp [covered]

theorem total_len_cons (x : lazy_iovec) (l : List lazy_iovec) :
    total_len (x :: l) = x.len + total_len l := by simp [total_len]

theorem covered_ge_end {x : lazy_iovec} {rest : List lazy_iovec}
    (hs : sorted_by_base (x :: rest)) (hn : non_overlapping (x :: rest)) {a : Nat}
    (h : covered rest a) : x.base + x.len ≤ a := by
  obtain ⟨y, hy, hya⟩ := h
  have h1 := (List.pairwise_cons.1 hs).1 y hy
  have h2 := (List.pairwise_cons.1 hn).1 y hy a
  unfold lazy_iovec.mem at *
  by_contra hc
  exact h2 ⟨⟨by omega, by omega⟩, hya⟩

theorem update_spec : ∀ (l : List lazy_iovec) (addr n : Nat),
    representable l → sorted_by_base l → non_overlapping l → n < 2147483648 →
    (∀ a, addr ≤ a → a < addr + n → covered l a) →
    (update_lazy_iovecs true l addr (n : Int)).1 = 0 ∧
    (∀ a, covered (update_lazy_iovecs true l addr (n : Int)).2 a ↔
      covered l a ∧ ¬ (addr ≤ a ∧ a < addr + n)) ∧
    total_len (update_lazy_iovecs true l addr (n : Int)).2 + n = total_len l := by
  intro l
  induction l with
  | nil =>
    intro addr n _ _ _ _ hc
    have hn0 : n = 0 := by
      by_contra h
      exact covered_nil addr (hc addr (le_refl _) (by omega))
    subst hn0
    simp [update_lazy_iovecs, covered_nil]
  | cons x rest ih =>
    intro addr n hr hs hn hlt hc
    have hx : x.base + x.len < U64 := hr x (List.mem_cons_self _ _)
    have hr' : representable rest := fun y hy => hr y (List.mem_cons_of_mem _ hy)
    have hs' : sorted_by_base rest := (List.pairwise_cons.1 hs).2
    have hn' : non_overlapping rest := (List.pairwise_cons.1 hn).2
    have hge : ∀ a, covered rest a → x.base + x.len ≤ a := fun a h => covered_ge_end hs hn h
    rw [update_lazy_iovecs]
    simp only [Nat.mod_eq_of_lt hx, to_ulong_natCast n (by unfold U64; omega)]
    by_cases hn0 : n = 0
    · subst hn0
      simp
    · have hpos : ¬ ((n : Int) ≤ 0) := by omega
      simp only [hpos, if_false]
      have hfit : addr + n < U64 := by
        obtain ⟨y, hy, hya⟩ := hc (addr + n - 1) (by omega) (by omega)
        have := hr y hy
        unfold lazy_iovec.mem at hya
        omega
      simp only [Nat.mod_eq_of_lt hfit]
      by_cases hskip : addr < x.base ∨ addr ≥ x.base + x.len
      · simp only [hskip, if_true]
        have hrange : ∀ a, addr ≤ a → a < addr + n → covered rest a := by
          intro a h1 h2
          have haddr : covered rest addr := by
            rcases (covered_cons x rest addr).1 (hc addr (le_refl _) (by omega)) with h | h
            · unfold lazy_iovec.mem at h; omega
            · exact h
          rcases (covered_cons x rest a).1 (hc a h1 h2) with h | h
          · have := hge addr haddr
            unfold lazy_iovec.mem at h; omega
          · exact h
        obtain ⟨ih1, ih2, ih3⟩ := ih addr n hr' hs' hn' hlt hrange
        refine ⟨ih1, ?_, ?_⟩
        · intro a
          rw [covered_cons, covered_cons, ih2]
          constructor
          · rintro (h | ⟨h, h'⟩)
            · refine ⟨Or.inl h, ?_⟩
              rintro ⟨h1, h2⟩
              have := hge a (hrange a h1 h2)
              unfold lazy_iovec.mem at h; omega
            · exact ⟨Or.inr h, h'⟩
          · rintro ⟨h | h, h'⟩
            · exact Or.inl h
            · exact Or.inr ⟨h, h'⟩
        · rw [total_len_cons, total_len_cons]; omega
      · simp only [hskip, if_false]
        have hlo : x.base ≤ addr := by omega
        have hhi : addr < x.base + x.len := by omega
        simp only [add_sub_mod (x.base + x.len) addr (by omega) hx]
        by_cases hin : addr + n < x.base + x.len
        · simp only [hin, if_true]
          by_cases heq : addr = x.base
          · subst heq
            simp only [if_true, Nat.mod_eq_of_lt hfit, add_sub_mod x.len n (by omega) (by omega)]
            refine ⟨trivial, ?_, ?_⟩
            · intro a
              rw [covered_cons, covered_cons]
              unfold lazy_iovec.mem
              constructor
              · rintro (h | h)
                · exact ⟨Or.inl (by simp only at h; omega), by simp only at h; omega⟩
                · exact ⟨Or.inr h, by have := hge a h; omega⟩
              · rintro ⟨h | h, h'⟩
                · left; simp only; omega
                · exact Or.inr h
            · rw [total_len_cons, total_len_cons]; simp only; omega
          · simp only [heq, if_false, if_true,
              add_sub_mod x.len (x.base + x.len - addr) (by omega) (by omega),
              add_sub_mod (x.base + x.len) (addr + n) (by omega) hx]
            refine ⟨trivial, ?_, ?_⟩
            · intro a
              rw [covered_cons, covered_cons, covered_cons]
              unfold lazy_iovec.mem
              constructor
              · rintro (h | h | h)
                · exact ⟨Or.inl (by simp only at h; omega), by simp only at h; omega⟩
                · exact ⟨Or.inl (by simp only at h; omega), by simp only at h; omega⟩
                · exact ⟨Or.inr h, by have := hge a h; omega⟩
              · rintro ⟨h | h, h'⟩
                · by_cases ha : a < addr
                  · left; simp only; omega
                  · right; left; simp only; omega
                · exact Or.inr (Or.inr h)
            · rw [total_len_cons, total_len_cons, total_len_cons]; simp only; omega
        · simp only [hin, if_false,
            add_sub_mod n (x.base + x.len - addr) (by omega) (by omega),
            to_int_natCast (n - (x.base + x.len - addr)) (by omega),
            add_sub_mod x.len (x.base + x.len - addr) (by omega) (by omega)]
          have hrange : ∀ a, x.base + x.len ≤ a →
              a < x.base + x.len + (n - (x.base + x.len - addr)) → covered rest a := by
            intro a ha1 ha2
            rcases (covered_cons x rest a).1 (hc a (by omega) (by omega)) with h | h
            · unfold lazy_iovec.mem at h; omega
            · exact h
          obtain ⟨ih1, ih2, ih3⟩ :=
            ih (x.base + x.len) (n - (x.base + x.len - addr)) hr' hs' hn' (by omega) hrange
          by_cases heq : addr = x.base
          · subst heq
            simp only [if_true]
            refine ⟨ih1, ?_, ?_⟩
            · intro a
              rw [ih2, covered_cons]
              unfold lazy_iovec.mem
              constructor
              · rintro ⟨h, h'⟩
                exact ⟨Or.inr h, by have := hge a h; omega⟩
              · rintro ⟨h | h, h'⟩
                · omega
                · exact ⟨h, by have := hge a h; omega⟩
            · rw [total_len_cons]; omega
          · simp only [heq, if_false]
            refine ⟨ih1, ?_, ?_⟩
            · intro a
              rw [covered_cons, ih2, covered_cons]
              unfold lazy_iovec.mem
              constructor
              · rintro (h | ⟨h, h'⟩)
                · exact ⟨Or.inl (by simp only at h; omega), by simp only at h; omega⟩
                · exact ⟨Or.inr h, by have := hge a h; omega⟩
              · rintro ⟨h | h, h'⟩
                · left; simp only; omega
                · exact Or.inr ⟨h, by have := hge a h; omega⟩
            · rw [total_len_cons, total_len_cons]; simp only; omega

/-! ## The list invariant is kept by `update_lazy_iovecs` -/

theorem iov_inv_nil (B M : Nat) : iov_inv B M [] := by
  simp [iov_inv]

theorem iov_inv_cons (B M : Nat) (x : lazy_iovec) (l : List lazy_iovec) :
    iov_inv B M (x :: l) ↔
      (0 < x.len ∧ x.len ≤ M ∧ x.base + x.len ≤ B) ∧
      (∀ y ∈ l, x.base + x.len ≤ y.base) ∧ iov_inv B M l := by
  simp only [iov_inv, List.forall_mem_cons, List.pairwise_cons]
  tauto

theorem to_ulong_of_pos (len : Int) (h1 : 0 < len) (h2 : len < 2147483648) :
    0 < to_ulong len ∧ to_ulong len < 2147483648 := by
  unfold to_ulong; omega

theorem update_inv (B M : Nat) (hB : B + 2147483648 ≤ U64) :
    ∀ (l : List lazy_iovec) (addr : Nat) (len : Int) (alloc_ok : Bool) (lo : Nat),
    len < 2147483648 → iov_inv B M l → (∀ y ∈ l, lo ≤ y.base) →
    iov_inv B M (update_lazy_iovecs alloc_ok l addr len).2 ∧
    ∀ y ∈ (update_lazy_iovecs alloc_ok l addr len).2, lo ≤ y.base := by
  intro l
  induction l with
  | nil =>
    intro addr len alloc_ok lo _ _ _
    simp [update_lazy_iovecs, iov_inv_nil]
  | cons x rest ih =>
    intro addr len alloc_ok lo hlen hinv hlo
    obtain ⟨⟨hx1, hx2, hx3⟩, hxr, hrest⟩ := (iov_inv_cons B M x rest).1 hinv
    have hlox : lo ≤ x.base := hlo x (List.mem_cons_self _ _)
    have hx : x.base + x.len < U64 := by omega
    rw [update_lazy_iovecs]
    simp only [Nat.mod_eq_of_lt hx]
    by_cases hpos : len ≤ 0
    · simp only [hpos, if_true]
      exact ⟨hinv, hlo⟩
    · simp only [hpos, if_false]
      obtain ⟨hm1, hm2⟩ := to_ulong_of_pos len (by omega) hlen
      generalize to_ulong len = m at hm1 hm2 ⊢
      by_cases hskip : addr < x.base ∨ addr ≥ x.base + x.len
      · simp only [hskip, if_true]
        obtain ⟨ih1, ih2⟩ := ih addr len alloc_ok (x.base + x.len) hlen hrest hxr
        refine ⟨(iov_inv_cons B M x _).2 ⟨⟨hx1, hx2, hx3⟩, ih2, ih1⟩, ?_⟩
        intro y hy
        rcases List.mem_cons.1 hy with h | h
        · rw [h]; exact hlox
        · have := ih2 y h; omega
      · simp only [hskip, if_false]
        have hfit : addr + m < U64 := by omega
        simp only [Nat.mod_eq_of_lt hfit, add_sub_mod (x.base + x.len) addr (by omega) hx]
        by_cases hin : addr + m < x.base + x.len
        · simp only [hin, if_true]
          by_cases heq : addr = x.base
          · subst heq
            simp only [if_true, Nat.mod_eq_of_lt hfit, add_sub_mod x.len m (by omega) (by omega)]
            refine ⟨(iov_inv_cons B M _ _).2 ⟨⟨?_, ?_, ?_⟩, ?_, hrest⟩, ?_⟩
            · simp only; omega
            · simp only; omega
            · simp only; omega
            · intro y hy; have := hxr y hy; simp only; omega
            · intro y hy
              rcases List.mem_cons.1 hy with h | h
              · rw [h]; simp only; omega
              · have := hxr y h; omega
          · simp only [heq, if_false,
              add_sub_mod x.len (x.base + x.len - addr) (by omega) (by omega),
              add_sub_mod (x.base + x.len) (addr + m) (by omega) hx]
            cases alloc_ok with
            | true =>
              simp only [if_true]
              refine ⟨(iov_inv_cons B M _ _).2 ⟨⟨?_, ?_, ?_⟩, ?_,
                (iov_inv_cons B M _ _).2 ⟨⟨?_, ?_, ?_⟩, ?_, hrest⟩⟩, ?_⟩
              · simp only; omega
              · simp only; omega
              · simp only; omega
              · intro y hy
                rcases List.mem_cons.1 hy with h | h
                · rw [h]; simp only; omega
                · have := hxr y h; simp only; omega
              · simp only; omega
              · simp only; omega
              · simp only; omega
              · intro y hy; have := hxr y hy; simp only; omega
              · intro y hy
                rcases List.mem_cons.1 hy with h | h
                · rw [h]; simp only; omega
                · rcases List.mem_cons.1 h with h | h
                  · rw [h]; simp only; omega
                  · have := hxr y h; omega
            | false =>
              simp only [Bool.false_eq_true, if_false]
              refine ⟨(iov_inv_cons B M _ _).2 ⟨⟨?_, ?_, ?_⟩, ?_, hrest⟩, ?_⟩
              · simp only; omega
              · simp only; omega
              · simp only; omega
              · intro y hy; have := hxr y hy; simp only; omega
              · intro y hy
                rcases List.mem_cons.1 hy with h | h
                · rw [h]; simp only; omega
                · have := hxr y h; omega
        · simp only [hin, if_false,
            add_sub_mod x.len (x.base + x.len - addr) (by omega) (by omega)]
          obtain ⟨ih1, ih2⟩ := ih (x.base + x.len)
            (to_int (((m + U64 - (x.base + x.len - addr)) % U64 : Nat) : Int))
            alloc_ok (x.base + x.len) (to_int_lt _) hrest hxr
          by_cases heq : addr = x.base
          · simp only [heq, if_true]
            rw [heq] at ih1 ih2
            refine ⟨ih1, ?_⟩
            intro y hy
            have := ih2 y hy; omega
          · simp only [heq, if_false]
            refine ⟨(iov_inv_cons B M _ _).2 ⟨⟨?_, ?_, ?_⟩, ?_, ih1⟩, ?_⟩
            · simp only; omega
            · simp only; omega
            · simp only; omega
            · intro y hy; have := ih2 y hy; simp only; omega
            · intro y hy
              rcases List.mem_cons.1 hy with h | h
              · rw [h]; simp only; omega
              · have := ih2 y h; omega

/-! ## The list built by `collect_lazy_iovecs` satisfies the invariant -/

theorem iov_inv_append (B M : Nat) (l1 l2 : List lazy_iovec)
    (h1 : iov_inv B M l1) (h2 : iov_inv B M l2)
    (h : ∀ x ∈ l1, ∀ y ∈ l2, x.base + x.len ≤ y.base) : iov_inv B M (l1 ++ l2) := by
  refine ⟨?_, ?_⟩
  · intro x hx
    rcases List.mem_append.1 hx with hx | hx
    · exact h1.1 x hx
    · exact h2.1 x hx
  · exact List.pairwise_append.2 ⟨h1.2, h2.2, h⟩

theorem collect_vmas_inv (B : Nat) (hB : B < U64) :
    ∀ (vmas : List VmaEntry) (start e : Nat) (mx : Int) (heap : Nat) (r : vma_loop_result),
    start < e → e ≤ B → collect_vmas vmas start e mx heap = some r →
    iov_inv B B r.added ∧ ∀ y ∈ r.added, start ≤ y.base ∧ y.base + y.len ≤ e := by
  intro vmas
  induction vmas with
  | nil =>
    intro start e mx heap r _ _ hr
    simp only [collect_vmas, Option.some.injEq] at hr
    subst hr
    simp [iov_inv_nil]
  | cons vma rest ih =>
    intro start e mx heap r hse heB hr
    rw [collect_vmas] at hr
    by_cases hskip : start ≥ vma.«end»
    · simp only [hskip, if_true] at hr
      exact ih start e mx heap r hse heB hr
    · simp only [hskip, if_false] at hr
      by_cases hheap : heap = 0
      · simp [hheap] at hr
      · simp only [hheap, if_false,
          add_sub_mod (min e vma.«end») start (by omega) (by omega)] at hr
        by_cases hbrk : e ≤ vma.«end»
        · simp only [hbrk, if_true, Option.some.injEq] at hr
          subst hr
          simp only [Nat.min_eq_left hbrk]
          refine ⟨(iov_inv_cons B B _ _).2 ⟨⟨?_, ?_, ?_⟩, ?_, iov_inv_nil B B⟩, ?_⟩
          · simp only; omega
          · simp only; omega
          · simp only; omega
          · simp
          · simp only [List.mem_singleton]
            rintro y rfl
            simp only; omega
        · simp only [hbrk, if_false] at hr
          have hmin : min e vma.«end» = vma.«end» := Nat.min_eq_right (by omega)
          simp only [hmin] at hr
          cases hrec : collect_vmas rest vma.«end» e
              (if vma.«end» - start > to_ulong mx then to_int ((vma.«end» - start : Nat) : Int)
               else mx) (heap - 1) with
          | none => simp [hrec] at hr
          | some r1 =>
            simp only [hrec, Option.some.injEq] at hr
            subst hr
            obtain ⟨ih1, ih2⟩ := ih vma.«end» e _ (heap - 1) r1 (by omega) heB hrec
            refine ⟨(iov_inv_cons B B _ _).2 ⟨⟨?_, ?_, ?_⟩, ?_, ih1⟩, ?_⟩
            · simp only; omega
            · simp only; omega
            · simp only; omega
            · intro y hy; have := ih2 y hy; simp only; omega
            · intro y hy
              rcases List.mem_cons.1 hy with h | h
              · rw [h]; simp only; omega
              · have := ih2 y h; omega

theorem entry_end_eq (page_size B : Nat) (hB : B < U64) (pe : PagemapEntry)
    (h : pe.vaddr + pe.nr_pages * page_size ≤ B) :
    (pe.vaddr + (pe.nr_pages * page_size) % U64) % U64 = pe.vaddr + pe.nr_pages * page_size := by
  rw [Nat.mod_eq_of_lt (a := pe.nr_pages * page_size) (by omega), Nat.mod_eq_of_lt (by omega)]

theorem collect_pagemap_inv (page_size B : Nat) (hB : B < U64) (hps : 0 < page_size) :
    ∀ (pm : List PagemapEntry) (vmas : List VmaEntry) (nr mx : Int) (heap : Nat)
      (q : pagemap_loop_result) (lo : Nat),
    pagemap_sorted page_size pm → pagemap_bounded page_size B pm →
    (∀ pe ∈ pm, lo ≤ pe.vaddr) →
    collect_pagemap page_size pm vmas nr mx heap = some q →
    iov_inv B B q.added ∧ ∀ y ∈ q.added, lo ≤ y.base := by
  intro pm
  induction pm with
  | nil =>
    intro vmas nr mx heap q lo _ _ _ hq
    simp only [collect_pagemap, Option.some.injEq] at hq
    subst hq
    simp [iov_inv_nil]
  | cons pe pes ih =>
    intro vmas nr mx heap q lo hs hb hlo hq
    have hs' : pagemap_sorted page_size pes := (List.pairwise_cons.1 hs).2
    have hnext : ∀ pe' ∈ pes, pe.vaddr + pe.nr_pages * page_size ≤ pe'.vaddr :=
      (List.pairwise_cons.1 hs).1
    have hb' : pagemap_bounded page_size B pes :=
      fun pe' h => hb pe' (List.mem_cons_of_mem _ h)
    have hlo' : ∀ pe' ∈ pes, lo ≤ pe'.vaddr := fun pe' h => hlo pe' (List.mem_cons_of_mem _ h)
    rw [collect_pagemap] at hq
    by_cases hlazy : pagemap_lazy pe = true
    · obtain ⟨hnr, hend⟩ := hb pe (List.mem_cons_self _ _) hlazy
      have hpos : 0 < pe.nr_pages * page_size := Nat.mul_pos hnr hps
      simp only [hlazy, Bool.not_true, Bool.false_eq_true, if_false,
        entry_end_eq page_size B hB pe hend] at hq
      cases hv : collect_vmas vmas pe.vaddr (pe.vaddr + pe.nr_pages * page_size) mx heap with
      | none => simp [hv] at hq
      | some r =>
        simp only [hv] at hq
        cases hrec : collect_pagemap page_size pes r.vmas (to_int (nr + pe.nr_pages))
            r.max_iov_len r.heap with
        | none => simp [hrec] at hq
        | some q1 =>
          simp only [hrec, Option.some.injEq] at hq
          subst hq
          obtain ⟨hv1, hv2⟩ := collect_vmas_inv B hB vmas _ _ mx heap r (by omega) hend hv
          obtain ⟨ih1, ih2⟩ := ih r.vmas _ _ _ q1 (pe.vaddr + pe.nr_pages * page_size)
            hs' hb' hnext hrec
          refine ⟨iov_inv_append B B _ _ hv1 ih1 ?_, ?_⟩
          · intro x hx y hy
            have := (hv2 x hx).2
            have := ih2 y hy
            omega
          · intro y hy
            have := hlo pe (List.mem_cons_self _ _)
            rcases List.mem_append.1 hy with h | h
            · have := (hv2 y h).1; omega
            · have := ih2 y h; omega
    · simp only [hlazy, Bool.not_false, if_true] at hq
      exact ih vmas nr mx heap q lo hs' hb' hlo' hq

theorem collect_lazy_iovecs_inv (page_size B : Nat) (hB : B < U64) (hps : 0 < page_size)
    (mm : Option (List VmaEntry)) (pm : List PagemapEntry) (heap : Nat) (memalign_ok : Bool)
    (hs : pagemap_sorted page_size pm) (hb : pagemap_bounded page_size B pm) :
    iov_inv B B (collect_lazy_iovecs page_size mm pm heap memalign_ok).iovs := by
  unfold collect_lazy_iovecs
  cases mm with
  | none => exact iov_inv_nil B B
  | some vmas =>
    simp only
    cases hq : collect_pagemap page_size pm vmas 0 0 heap with
    | none => exact iov_inv_nil B B
    | some q =>
      simp only
      cases memalign_ok with
      | false => exact iov_inv_nil B B
      | true =>
        exact (collect_pagemap_inv page_size B hB hps pm vmas 0 0 heap q 0 hs hb
          (fun _ _ => Nat.zero_le _) hq).1

theorem iov_inv_sorted (B M : Nat) (l : List lazy_iovec) (h : iov_inv B M l) :
    strictly_sorted_by_base l ∧ non_overlapping l := by
  refine ⟨?_, ?_⟩
  · refine List.Pairwise.imp_of_mem ?_ h.2
    intro x y hx _ hxy
    have := (h.1 x hx).1
    omega
  · refine List.Pairwise.imp_of_mem ?_ h.2
    intro x y _ _ hxy a
    unfold lazy_iovec.mem
    omega

theorem update_calls_inv (B M : Nat) (hB : B + 2147483648 ≤ U64) :
    ∀ (calls : List (Nat × Int × Bool)) (l : List lazy_iovec),
    (∀ c ∈ calls, is_int c.2.1) → iov_inv B M l → iov_inv B M (update_calls l calls) := by
  intro calls
  induction calls with
  | nil => intro l _ h; exact h
  | cons c cs ih =>
    intro l hc h
    unfold update_calls
    rw [List.foldl_cons]
    exact ih _ (fun c' h' => hc c' (List.mem_cons_of_mem _ h'))
      (update_inv B M hB l c.1 c.2.1 c.2.2 0 (hc c (List.mem_cons_self _ _)).2 h
        (fun _ _ => Nat.zero_le _)).1

/-! ## `collect_lazy_iovecs` cuts the lazy records at the VMA ends -/

theorem cut_points_nil (s e : Nat) : cut_points [] s e = [] := rfl

theorem cut_points_cons (v : VmaEntry) (vmas : List VmaEntry) (s e : Nat) :
    cut_points (v :: vmas) s e =
      if s < v.«end» ∧ v.«end» < e then v.«end» :: cut_points vmas s e
      else cut_points vmas s e := by
  unfold cut_points
  rw [List.map_cons, List.filter_cons]
  by_cases h : s < v.«end» ∧ v.«end» < e
  · simp [h]
  · simp [h]

theorem cut_points_eq_nil (vmas : List VmaEntry) (s e : Nat)
    (h : ∀ v ∈ vmas, e ≤ v.«end») : cut_points vmas s e = [] := by
  induction vmas with
  | nil => rfl
  | cons v vs ih =>
    rw [cut_points_cons]
    have hv := h v (List.mem_cons_self _ _)
    have : ¬ (s < v.«end» ∧ v.«end» < e) := by omega
    simp only [this, if_false]
    exact ih (fun w hw => h w (List.mem_cons_of_mem _ hw))

theorem cut_points_start (vmas : List VmaEntry) (s c e : Nat) (hsc : s ≤ c)
    (h : ∀ v ∈ vmas, c < v.«end») : cut_points vmas s e = cut_points vmas c e := by
  induction vmas with
  | nil => rfl
  | cons v vs ih =>
    rw [cut_points_cons, cut_points_cons]
    have hv := h v (List.mem_cons_self _ _)
    have ih' := ih (fun w hw => h w (List.mem_cons_of_mem _ hw))
    by_cases hve : v.«end» < e
    · have h1 : s < v.«end» ∧ v.«end» < e := ⟨by omega, hve⟩
      have h2 : c < v.«end» ∧ v.«end» < e := ⟨hv, hve⟩
      simp only [h1, h2, and_self, if_true, ih']
    · have h1 : ¬ (s < v.«end» ∧ v.«end» < e) := by omega
      have h2 : ¬ (c < v.«end» ∧ v.«end» < e) := by omega
      simp only [h1, h2, if_false, ih']

theorem cut_points_dropWhile (vmas : List VmaEntry) (e0 s e : Nat) (h : e0 ≤ s) :
    cut_points (vmas.dropWhile (fun v => decide (v.«end» < e0))) s e = cut_points vmas s e := by
  induction vmas with
  | nil => rfl
  | cons v vs ih =>
    rw [List.dropWhile_cons]
    by_cases hv : v.«end» < e0
    · simp only [hv, decide_True, if_true, ih]
      rw [cut_points_cons]
      have : ¬ (s < v.«end» ∧ v.«end» < e) := by omega
      simp only [this, if_false]
    · simp only [hv, decide_False, Bool.false_eq_true, if_false]

theorem mem_dropWhile_of_not {α : Type} (p : α → Bool) (l : List α) (x : α)
    (hx : x ∈ l) (hp : p x = false) : x ∈ l.dropWhile p := by
  induction l with
  | nil => exact absurd hx (List.not_mem_nil _)
  | cons y ys ih =>
    rw [List.dropWhile_cons]
    by_cases hy : p y = true
    · simp only [hy, if_true]
      rcases List.mem_cons.1 hx with h | h
      · rw [h, hy] at hp; exact absurd hp (by simp)
      · exact ih h
    · simp only [hy, Bool.false_eq_true, if_false]
      exact hx

theorem vmas_sorted_tail (v : VmaEntry) (vs : List VmaEntry) (h : vmas_sorted (v :: vs)) :
    vmas_sorted vs :=
  ⟨(List.pairwise_cons.1 h.1).2, fun w hw => h.2 w (List.mem_cons_of_mem _ hw)⟩

theorem vmas_sorted_head_lt (v : VmaEntry) (vs : List VmaEntry) (h : vmas_sorted (v :: vs)) :
    ∀ w ∈ vs, v.«end» < w.«end» := by
  intro w hw
  have h1 := (List.pairwise_cons.1 h.1).1 w hw
  have h2 := h.2 w (List.mem_cons_of_mem _ hw)
  omega

theorem vmas_sorted_sublist (l1 l2 : List VmaEntry) (hsub : l1.Sublist l2)
    (h : vmas_sorted l2) : vmas_sorted l1 :=
  ⟨h.1.sublist hsub, fun w hw => h.2 w (hsub.subset hw)⟩

theorem collect_vmas_cursor :
    ∀ (vmas : List VmaEntry) (start e : Nat) (mx : Int) (heap : Nat) (r : vma_loop_result),
    start < e → collect_vmas vmas start e mx heap = some r →
    r.vmas = vmas.dropWhile (fun v => decide (v.«end» < e)) := by
  intro vmas
  induction vmas with
  | nil =>
    intro start e mx heap r _ hr
    simp only [collect_vmas, Option.some.injEq] at hr
    subst hr
    rfl
  | cons vma rest ih =>
    intro start e mx heap r hse hr
    rw [collect_vmas] at hr
    rw [List.dropWhile_cons]
    by_cases hskip : start ≥ vma.«end»
    · simp only [hskip, if_true] at hr
      have : vma.«end» < e := by omega
      simp only [this, decide_True, if_true]
      exact ih start e mx heap r hse hr
    · simp only [hskip, if_false] at hr
      by_cases hheap : heap = 0
      · simp [hheap] at hr
      · simp only [hheap, if_false] at hr
        by_cases hbrk : e ≤ vma.«end»
        · simp only [hbrk, if_true, Option.some.injEq] at hr
          subst hr
          have : ¬ vma.«end» < e := by omega
          simp only [this, decide_False, Bool.false_eq_true, if_false]
        · simp only [hbrk, if_false] at hr
          have : vma.«end» < e := by omega
          simp only [this, decide_True, if_true]
          generalize (if (min e vma.«end» + U64 - start) % U64 > to_ulong mx
            then to_int (((min e vma.«end» + U64 - start) % U64 : Nat) : Int) else mx) = mx1 at hr
          cases hrec : collect_vmas rest vma.«end» e mx1 (heap - 1) with
          | none => simp [hrec] at hr
          | some r1 =>
            simp only [hrec, Option.some.injEq] at hr
            subst hr
            exact ih vma.«end» e mx1 (heap - 1) r1 (by omega) hrec

theorem collect_vmas_spec :
    ∀ (vmas : List VmaEntry) (start e : Nat) (mx : Int) (heap : Nat),
    start < e → e < U64 → vmas_sorted vmas → covered_by_vmas vmas start e →
    vmas.length ≤ heap →
    ∃ r, collect_vmas vmas start e mx heap = some r ∧
      r.added = cut_at start (cut_points vmas start e) e ∧
      r.heap + r.added.length = heap ∧
      r.added.length + r.vmas.length ≤ vmas.length + 1 ∧
      ∀ y ∈ r.added, ∃ v ∈ vmas, within_vma y v := by
  intro vmas
  induction vmas with
  | nil =>
    intro start e mx heap hse _ _ hcov _
    obtain ⟨v, hv, _⟩ := hcov start (le_refl _) hse
    exact absurd hv (List.not_mem_nil _)
  | cons vma rest ih =>
    intro start e mx heap hse he hsort hcov hheap
    have hsort' := vmas_sorted_tail vma rest hsort
    have hlt := vmas_sorted_head_lt vma rest hsort
    have hnext : ∀ w ∈ rest, vma.«end» ≤ w.start := (List.pairwise_cons.1 hsort.1).1
    rw [List.length_cons] at hheap
    rw [collect_vmas, cut_points_cons]
    by_cases hskip : start ≥ vma.«end»
    · simp only [hskip, if_true]
      have hcov' : covered_by_vmas rest start e := by
        intro a h1 h2
        obtain ⟨w, hw, hw1, hw2⟩ := hcov a h1 h2
        rcases List.mem_cons.1 hw with h | h
        · rw [h] at hw2; omega
        · exact ⟨w, h, hw1, hw2⟩
      obtain ⟨r, hr, h1, h2, h3, h4⟩ := ih start e mx heap hse he hsort' hcov' (by omega)
      have hc : ¬ (start < vma.«end» ∧ vma.«end» < e) := by omega
      simp only [hc, if_false]
      refine ⟨r, hr, h1, h2, ?_, ?_⟩
      · rw [List.length_cons]; omega
      · intro y hy
        obtain ⟨v, hv, hvy⟩ := h4 y hy
        exact ⟨v, List.mem_cons_of_mem _ hv, hvy⟩
    · have hh : ¬ heap = 0 := by omega
      have hstart : vma.start ≤ start := by
        obtain ⟨w, hw, hw1, hw2⟩ := hcov start (le_refl _) hse
        rcases List.mem_cons.1 hw with h | h
        · rw [h] at hw1; exact hw1
        · have := hnext w h; omega
      simp only [hskip, if_false, hh,
        add_sub_mod (min e vma.«end») start (by omega) (by omega)]
      by_cases hbrk : e ≤ vma.«end»
      · have hc : ¬ (start < vma.«end» ∧ vma.«end» < e) := by omega
        simp only [hbrk, if_true, hc, if_false, Nat.min_eq_left hbrk]
        refine ⟨_, rfl, ?_, ?_, ?_, ?_⟩
        · rw [cut_points_eq_nil rest start e (fun w hw => by have := hlt w hw; omega)]
          rfl
        · simp only [List.length_cons, List.length_nil]; omega
        · simp only [List.length_cons, List.length_nil]; omega
        · simp only [List.mem_singleton]
          rintro y rfl
          exact ⟨vma, List.mem_cons_self _ _, by unfold within_vma; simp only; omega⟩
      · have hc : start < vma.«end» ∧ vma.«end» < e := by omega
        have hmin : min e vma.«end» = vma.«end» := Nat.min_eq_right (by omega)
        simp only [hbrk, if_false, hc, and_self, if_true, hmin]
        have hcov' : covered_by_vmas rest vma.«end» e := by
          intro a h1 h2
          obtain ⟨w, hw, hw1, hw2⟩ := hcov a (by omega) h2
          rcases List.mem_cons.1 hw with h | h
          · rw [h] at hw2; omega
          · exact ⟨w, h, hw1, hw2⟩
        obtain ⟨r, hr, h1, h2, h3, h4⟩ := ih vma.«end» e
          (if vma.«end» - start > to_ulong mx then to_int ((vma.«end» - start : Nat) : Int)
           else mx) (heap - 1) (by omega) he hsort' hcov' (by omega)
        rw [hr]
        refine ⟨_, rfl, ?_, ?_, ?_, ?_⟩
        · simp only
          rw [h1, cut_points_start rest start vma.«end» e (by omega) hlt]
          rfl
        · simp only [List.length_cons]; omega
        · simp only [List.length_cons]; omega
        · simp only
          intro y hy
          rcases List.mem_cons.1 hy with h | h
          · exact ⟨vma, List.mem_cons_self _ _, by rw [h]; unfold within_vma; simp only; omega⟩
          · obtain ⟨v, hv, hvy⟩ := h4 y h
            exact ⟨v, List.mem_cons_of_mem _ hv, hvy⟩

theorem spec_iovs_nil (page_size : Nat) (vmas : List VmaEntry) :
    spec_iovs page_size vmas [] = [] := rfl

theorem spec_iovs_cons (page_size : Nat) (vmas : List VmaEntry) (pe : PagemapEntry)
    (pes : List PagemapEntry) :
    spec_iovs page_size vmas (pe :: pes) =
      if pagemap_lazy pe = true then spec_pieces page_size vmas pe ++ spec_iovs page_size vmas pes
      else spec_iovs page_size vmas pes := by
  unfold spec_iovs
  rw [List.filter_cons]
  by_cases h : pagemap_lazy pe = true
  · simp only [h, if_true, List.flatMap_cons]
  · simp only [h, Bool.false_eq_true, if_false]

theorem spec_iovs_dropWhile (page_size : Nat) (vmas : List VmaEntry) (e0 : Nat) :
    ∀ (pes : List PagemapEntry), (∀ pe ∈ pes, e0 ≤ pe.vaddr) →
    spec_iovs page_size (vmas.dropWhile (fun v => decide (v.«end» < e0))) pes =
      spec_iovs page_size vmas pes := by
  intro pes
  induction pes with
  | nil => intro _; rfl
  | cons pe pes ih =>
    intro h
    rw [spec_iovs_cons, spec_iovs_cons, ih (fun pe' h' => h pe' (List.mem_cons_of_mem _ h'))]
    unfold spec_pieces
    rw [cut_points_dropWhile vmas e0 _ _ (h pe (List.mem_cons_self _ _))]

theorem collect_pagemap_spec (page_size B : Nat) (hB : B < U64) (hps : 0 < page_size) :
    ∀ (pm : List PagemapEntry) (cur : List VmaEntry) (nr mx : Int) (heap : Nat),
    pagemap_sorted page_size pm → pagemap_bounded page_size B pm → vmas_sorted cur →
    pagemap_covered page_size cur pm → pm.length + cur.length ≤ heap →
    ∃ q, collect_pagemap page_size pm cur nr mx heap = some q ∧
      q.added = spec_iovs page_size cur pm ∧
      ∀ y ∈ q.added, ∃ v ∈ cur, within_vma y v := by
  intro pm
  induction pm with
  | nil =>
    intro cur nr mx heap _ _ _ _ _
    exact ⟨_, rfl, rfl, fun y hy => absurd hy (List.not_mem_nil _)⟩
  | cons pe pes ih =>
    intro cur nr mx heap hs hb hsort hcov hheap
    have hs' : pagemap_sorted page_size pes := (List.pairwise_cons.1 hs).2
    have hnext : ∀ pe' ∈ pes, pe.vaddr + pe.nr_pages * page_size ≤ pe'.vaddr :=
      (List.pairwise_cons.1 hs).1
    have hb' : pagemap_bounded page_size B pes :=
      fun pe' h => hb pe' (List.mem_cons_of_mem _ h)
    have hcov' : pagemap_covered page_size cur pes :=
      fun pe' h => hcov pe' (List.mem_cons_of_mem _ h)
    rw [List.length_cons] at hheap
    rw [collect_pagemap, spec_iovs_cons]
    by_cases hlazy : pagemap_lazy pe = true
    · obtain ⟨hnr, hend⟩ := hb pe (List.mem_cons_self _ _) hlazy
      have hpos : 0 < pe.nr_pages * page_size := Nat.mul_pos hnr hps
      simp only [hlazy, Bool.not_true, Bool.false_eq_true, if_false, if_true,
        entry_end_eq page_size B hB pe hend]
      obtain ⟨r, hr, h1, h2, h3, h4⟩ := collect_vmas_spec cur pe.vaddr
        (pe.vaddr + pe.nr_pages * page_size) mx heap (by omega) (by omega) hsort
        (hcov pe (List.mem_cons_self _ _) hlazy) (by omega)
      have hcur := collect_vmas_cursor cur _ _ mx heap r (by omega) hr
      have hsub : r.vmas.Sublist cur := by rw [hcur]; exact List.dropWhile_sublist _
      have hcovr : pagemap_covered page_size r.vmas pes := by
        intro pe' hpe' hl a ha1 ha2
        obtain ⟨w, hw, hw1, hw2⟩ := hcov' pe' hpe' hl a ha1 ha2
        refine ⟨w, ?_, hw1, hw2⟩
        rw [hcur]
        refine mem_dropWhile_of_not _ _ _ hw ?_
        have := hnext pe' hpe'
        simp only [decide_eq_false_iff_not]
        omega
      obtain ⟨q1, hq1, h5, h6⟩ := ih r.vmas (to_int (nr + pe.nr_pages)) r.max_iov_len r.heap
        hs' hb' (vmas_sorted_sublist _ _ hsub hsort) hcovr (by omega)
      rw [hr]
      simp only [hq1]
      refine ⟨_, rfl, ?_, ?_⟩
      · simp only
        rw [h1, h5, hcur, spec_iovs_dropWhile page_size cur _ pes hnext]
        rfl
      · simp only
        intro y hy
        rcases List.mem_append.1 hy with h | h
        · exact h4 y h
        · obtain ⟨v, hv, hvy⟩ := h6 y h
          exact ⟨v, hsub.subset hv, hvy⟩
    · simp only [hlazy, Bool.not_false, if_true, Bool.false_eq_true, if_false]
      exact ih cur nr mx heap hs' hb' hsort hcov' (by omega)

theorem collect_pagemap_nr_pages (page_size : Nat) :
    ∀ (pm : List PagemapEntry) (cur : List VmaEntry) (nr mx : Int) (heap : Nat)
      (q : pagemap_loop_result),
    0 ≤ nr → nr + lazy_pages pm < 2147483648 →
    collect_pagemap page_size pm cur nr mx heap = some q →
    q.nr_pages = nr + lazy_pages pm := by
  intro pm
  induction pm with
  | nil =>
    intro cur nr mx heap q _ _ hq
    simp only [collect_pagemap, Option.some.injEq] at hq
    subst hq
    simp [lazy_pages]
  | cons pe pes ih =>
    intro cur nr mx heap q h0 hlt hq
    rw [collect_pagemap] at hq
    by_cases hlazy : pagemap_lazy pe = true
    · have hl : lazy_pages (pe :: pes) = pe.nr_pages + lazy_pages pes := by
        simp [lazy_pages, List.filter_cons, hlazy]
      rw [hl] at hlt ⊢
      simp only [hlazy, Bool.not_true, Bool.false_eq_true, if_false] at hq
      generalize (pe.vaddr + (pe.nr_pages * page_size) % U64) % U64 = e at hq
      cases hv : collect_vmas cur pe.vaddr e mx heap with
      | none => simp [hv] at hq
      | some r =>
        simp only [hv] at hq
        cases hrec : collect_pagemap page_size pes r.vmas (to_int (nr + pe.nr_pages))
            r.max_iov_len r.heap with
        | none => simp [hrec] at hq
        | some q1 =>
          simp only [hrec, Option.some.injEq] at hq
          subst hq
          have hti : to_int (nr + pe.nr_pages) = nr + pe.nr_pages := by
            unfold to_int; omega
          rw [hti] at hrec
          have := ih r.vmas (nr + pe.nr_pages) r.max_iov_len r.heap q1 (by omega)
            (by push_cast at hlt ⊢; omega) hrec
          simp only [this]
          push_cast
          omega
    · have hl : lazy_pages (pe :: pes) = lazy_pages pes := by
        simp [lazy_pages, List.filter_cons, hlazy]
      rw [hl] at hlt ⊢
      simp only [hlazy, Bool.not_false, if_true] at hq
      exact ih cur nr mx heap q h0 hlt hq

/-! ## Page installation -/

theorem uffd_copy_eq (page_size : Nat) (lpi : lazy_pages_info) (addr : Nat)
    (n rc copy : Int) :
    uffd_copy page_size lpi addr n rc copy =
      if (rc = 0 ∧ to_ulong copy = to_ulong (n * page_size)) ∨ (rc ≠ 0 ∧ copy = -EEXIST) then
        (0, { lpi with
          ioctls := lpi.ioctls ++ [uffd_ioctl.copy addr (to_ulong (n * page_size))],
          copied_pages := to_ulong (lpi.copied_pages + n) })
      else
        (-1, { lpi with
          ioctls := lpi.ioctls ++ [uffd_ioctl.copy addr (to_ulong (n * page_size))] }) := by
  unfold uffd_copy
  by_cases hrc : rc = 0
  · by_cases hc : to_ulong copy = to_ulong (n * page_size)
    · simp [hrc, hc]
    · simp [hrc, hc]
  · by_cases hc : copy = -EEXIST
    · simp [hrc, hc]
    · simp [hrc, hc]

/-! ## The drain loop and the summary -/

theorem handle_remaining_loop_ret (page_size : Nat) :
    ∀ (l : List lazy_iovec) (lpi : lazy_pages_info) (envs : Nat → reader_env) (i : Nat),
    (handle_remaining_loop page_size l lpi envs i).1 = 0 ∨
    (handle_remaining_loop page_size l lpi envs i).1 = -1 := by
  intro l
  induction l with
  | nil => intro lpi envs i; left; rfl
  | cons x rest ih =>
    intro lpi envs i
    rw [handle_remaining_loop]
    split
    · right; rfl
    · exact ih _ envs (i + 1)

theorem drain_tasks_ok (page_size : Nat) (envs : Nat → Nat → reader_env) :
    ∀ (lpis : List lazy_pages_info) (k : Nat),
    (drain_tasks page_size envs lpis k 0).1 = true →
    (drain_tasks page_size envs lpis k 0).2.1 = 0 := by
  intro lpis
  induction lpis with
  | nil => intro k _; rfl
  | cons lpi rest ih =>
    intro k h
    rw [drain_tasks] at h ⊢
    by_cases hr : (handle_remaining_pages page_size lpi (envs k)).1 < 0
    · simp [hr] at h
    · simp only [hr, if_false] at h ⊢
      have h0 : (handle_remaining_pages page_size lpi (envs k)).1 = 0 := by
        rcases handle_remaining_loop_ret page_size _ _ (envs k) 0 with h1 | h1
        · exact h1
        · exact absurd (show (handle_remaining_pages page_size lpi (envs k)).1 < 0 by
            unfold handle_remaining_pages; rw [h1]; decide) hr
      rw [h0] at h ⊢
      exact ih (k + 1) h

theorem drain_tasks_failed (page_size : Nat) (envs : Nat → Nat → reader_env) :
    ∀ (lpis : List lazy_pages_info) (k : Nat) (ret : Int),
    (drain_tasks page_size envs lpis k ret).1 = false →
    (drain_tasks page_size envs lpis k ret).2.1 = 1 := by
  intro lpis
  induction lpis with
  | nil => intro k ret h; simp [drain_tasks] at h
  | cons lpi rest ih =>
    intro k ret h
    rw [drain_tasks] at h ⊢
    by_cases hr : (handle_remaining_pages page_size lpi (envs k)).1 < 0
    · simp only [hr, if_true]
    · simp only [hr, if_false] at h ⊢
      exact ih (k + 1) _ h

theorem drain_tasks_length (page_size : Nat) (envs : Nat → Nat → reader_env) :
    ∀ (lpis : List lazy_pages_info) (k : Nat) (ret : Int),
    (drain_tasks page_size envs lpis k ret).2.2.length = lpis.length := by
  intro lpis
  induction lpis with
  | nil => intro k ret; rfl
  | cons lpi rest ih =>
    intro k ret
    rw [drain_tasks]
    split
    · simp
    · simp [ih]

theorem lazy_pages_summary_eq (lpi : lazy_pages_info) :
    lazy_pages_summary lpi = if mismatched lpi = true then 1 else 0 := by
  unfold lazy_pages_summary mismatched
  by_cases h : lpi.copied_pages ≠ lpi.total_pages ∧ lpi.total_pages > 0
  · simp [h]
  · rw [if_neg h, if_neg (by simpa using h)]

theorem sum_summaries_eq :
    ∀ (lpis : List lazy_pages_info) (ret : Int), 0 ≤ ret → ret + lpis.length < 2147483648 →
    sum_summaries ret lpis = ret + (lpis.countP mismatched : Nat) := by
  intro lpis
  induction lpis with
  | nil => intro ret _ _; simp [sum_summaries]
  | cons lpi rest ih =>
    intro ret h0 hlt
    unfold sum_summaries at ih ⊢
    rw [List.foldl_cons, List.countP_cons, lazy_pages_summary_eq]
    rw [List.length_cons] at hlt
    by_cases hm : mismatched lpi = true
    · simp only [hm, if_true]
      have : to_int (ret + 1) = ret + 1 := by unfold to_int; omega
      rw [this, ih (ret + 1) (by omega) (by push_cast at hlt ⊢; omega)]
      push_cast; omega
    · simp only [hm, Bool.false_eq_true, if_false]
      have : to_int (ret + 0) = ret := by unfold to_int; omega
      rw [this, ih ret h0 (by push_cast at hlt ⊢; omega)]
      push_cast; omega

/-! ## The recorded maximum interval length -/

theorem collect_vmas_max (B : Nat) (hB : B < U64) :
    ∀ (vmas : List VmaEntry) (start e : Nat) (mx : Int) (heap : Nat) (r : vma_loop_result),
    start < e → e ≤ B → e - start < 2147483648 → 0 ≤ mx → mx < 2147483648 →
    collect_vmas vmas start e mx heap = some r →
    mx ≤ r.max_iov_len ∧ r.max_iov_len < 2147483648 ∧
    ∀ y ∈ r.added, (y.len : Int) ≤ r.max_iov_len := by
  intro vmas
  induction vmas with
  | nil =>
    intro start e mx heap r _ _ _ _ hmx hr
    simp only [collect_vmas, Option.some.injEq] at hr
    subst hr
    exact ⟨le_refl _, hmx, fun y hy => absurd hy (List.not_mem_nil _)⟩
  | cons vma rest ih =>
    intro start e mx heap r hse heB hshort hmx0 hmx hr
    rw [collect_vmas] at hr
    by_cases hskip : start ≥ vma.«end»
    · simp only [hskip, if_true] at hr
      exact ih start e mx heap r hse heB hshort hmx0 hmx hr
    · simp only [hskip, if_false] at hr
      by_cases hheap : heap = 0
      · simp [hheap] at hr
      · have hu : to_ulong mx = mx.toNat := by
          clear hr ih; unfold to_ulong; omega
        simp only [hheap, if_false, hu,
          add_sub_mod (min e vma.«end») start (by omega) (by omega)] at hr
        have hti : to_int ((min e vma.«end» - start : Nat) : Int)
            = ((min e vma.«end» - start : Nat) : Int) :=
          to_int_natCast _ (by omega)
        rw [hti] at hr
        clear hti hu
        generalize hmx1 : (if min e vma.«end» - start > mx.toNat
          then ((min e vma.«end» - start : Nat) : Int) else mx) = mx1 at hr
        have hb1 : mx ≤ mx1 ∧ mx1 < 2147483648 ∧
            ((min e vma.«end» - start : Nat) : Int) ≤ mx1 := by
          rw [← hmx1]
          split <;> omega
        clear hmx1
        by_cases hbrk : e ≤ vma.«end»
        · simp only [hbrk, if_true, Option.some.injEq] at hr
          subst hr
          refine ⟨hb1.1, hb1.2.1, ?_⟩
          simp only [List.mem_singleton]
          rintro y rfl
          exact hb1.2.2
        · simp only [hbrk, if_false] at hr
          cases hrec : collect_vmas rest vma.«end» e mx1 (heap - 1) with
          | none => simp [hrec] at hr
          | some r1 =>
            simp only [hrec, Option.some.injEq] at hr
            subst hr
            obtain ⟨ih1, ih2, ih3⟩ := ih vma.«end» e mx1 (heap - 1) r1 (by omega) heB
              (by omega) (by omega) hb1.2.1 hrec
            refine ⟨by simp only; omega, ih2, ?_⟩
            intro y hy
            rcases List.mem_cons.1 hy with h | h
            · rw [h]; simp only; omega
            · exact ih3 y h

theorem collect_pagemap_max (page_size B : Nat) (hB : B < U64) (hps : 0 < page_size) :
    ∀ (pm : List PagemapEntry) (vmas : List VmaEntry) (nr mx : Int) (heap : Nat)
      (q : pagemap_loop_result),
    pagemap_bounded page_size B pm → pagemap_below_2G page_size pm →
    0 ≤ mx → mx < 2147483648 →
    collect_pagemap page_size pm vmas nr mx heap = some q →
    mx ≤ q.max_iov_len ∧ q.max_iov_len < 2147483648 ∧
    ∀ y ∈ q.added, (y.len : Int) ≤ q.max_iov_len := by
  intro pm
  induction pm with
  | nil =>
    intro vmas nr mx heap q _ _ _ hmx hq
    simp only [collect_pagemap, Option.some.injEq] at hq
    subst hq
    exact ⟨le_refl _, hmx, fun y hy => absurd hy (List.not_mem_nil _)⟩
  | cons pe pes ih =>
    intro vmas nr mx heap q hb h2g hmx0 hmx hq
    have hb' : pagemap_bounded page_size B pes :=
      fun pe' h => hb pe' (List.mem_cons_of_mem _ h)
    have h2g' : pagemap_below_2G page_size pes :=
      fun pe' h => h2g pe' (List.mem_cons_of_mem _ h)
    rw [collect_pagemap] at hq
    by_cases hlazy : pagemap_lazy pe = true
    · obtain ⟨hnr, hend⟩ := hb pe (List.mem_cons_self _ _) hlazy
      have hshort := h2g pe (List.mem_cons_self _ _) hlazy
      have hpos : 0 < pe.nr_pages * page_size := Nat.mul_pos hnr hps
      simp only [hlazy, Bool.not_true, Bool.false_eq_true, if_false,
        entry_end_eq page_size B hB pe hend] at hq
      cases hv : collect_vmas vmas pe.vaddr (pe.vaddr + pe.nr_pages * page_size) mx heap with
      | none => simp [hv] at hq
      | some r =>
        simp only [hv] at hq
        cases hrec : collect_pagemap page_size pes r.vmas (to_int (nr + pe.nr_pages))
            r.max_iov_len r.heap with
        | none => simp [hrec] at hq
        | some q1 =>
          simp only [hrec, Option.some.injEq] at hq
          subst hq
          obtain ⟨hv1, hv2, hv3⟩ := collect_vmas_max B hB vmas _ _ mx heap r (by omega) hend
            (by omega) hmx0 hmx hv
          obtain ⟨ih1, ih2, ih3⟩ := ih r.vmas _ _ _ q1 hb' h2g' (by omega) hv2 hrec
          refine ⟨by simp only; omega, ih2, ?_⟩
          intro y hy
          rcases List.mem_append.1 hy with h | h
          · have := hv3 y h; simp only; omega
          · exact ih3 y h
    · simp only [hlazy, Bool.not_false, if_true] at hq
      exact ih vmas nr mx heap q hb' h2g' hmx0 hmx hq

/-- When every lazy record is shorter than `2^31` bytes, no interval built by
`collect_lazy_iovecs` is longer than the scratch buffer it allocates. -/
theorem collect_lazy_iovecs_buf_size (page_size B : Nat) (hB : B < U64) (hps : 0 < page_size)
    (mm : Option (List VmaEntry)) (pm : List PagemapEntry) (heap : Nat) (memalign_ok : Bool)
    (hb : pagemap_bounded page_size B pm) (h2g : pagemap_below_2G page_size pm) :
    ∀ iov ∈ (collect_lazy_iovecs page_size mm pm heap memalign_ok).iovs,
      iov.len ≤ (collect_lazy_iovecs page_size mm pm heap memalign_ok).buf_size := by
  unfold collect_lazy_iovecs
  cases mm with
  | none => intro iov h; exact absurd h (List.not_mem_nil _)
  | some vmas =>
    simp only
    cases hq : collect_pagemap page_size pm vmas 0 0 heap with
    | none => intro iov h; exact absurd h (List.not_mem_nil _)
    | some q =>
      simp only
      cases memalign_ok with
      | false => intro iov h; simp at h
      | true =>
        obtain ⟨h1, h2, h3⟩ := collect_pagemap_max page_size B hB hps pm vmas 0 0 heap q
          hb h2g (le_refl _) (by decide) hq
        intro iov hiov
        have := h3 iov hiov
        simp only [if_true] at hiov ⊢
        have hu : to_ulong q.max_iov_len = q.max_iov_len.toNat := by
          unfold to_ulong; omega
        rw [hu]
        omega

/-- When every lazy record is shorter than `2^31` bytes, every interval of the
list built by `collect_lazy_iovecs`, and of every list obtained from it by a
sequence of `update_lazy_iovecs` calls, is at most as long as the scratch
buffer. -/
theorem update_calls_buf_size (page_size B : Nat) (hB : B + 2147483648 ≤ U64)
    (hps : 0 < page_size) (mm : Option (List VmaEntry)) (pm : List PagemapEntry)
    (heap : Nat) (memalign_ok : Bool) (calls : List (Nat × Int × Bool))
    (hs : pagemap_sorted page_size pm) (hb : pagemap_bounded page_size B pm)
    (h2g : pagemap_below_2G page_size pm) (hc : ∀ c ∈ calls, is_int c.2.1) :
    ∀ iov ∈ update_calls (collect_lazy_iovecs page_size mm pm heap memalign_ok).iovs calls,
      iov.len ≤ (collect_lazy_iovecs page_size mm pm heap memalign_ok).buf_size := by
  have h1 := collect_lazy_iovecs_inv page_size B (by omega) hps mm pm heap memalign_ok hs hb
  have h2 := collect_lazy_iovecs_buf_size page_size B (by omega) hps mm pm heap memalign_ok
    hb h2g
  have h3 : iov_inv B (collect_lazy_iovecs page_size mm pm heap memalign_ok).buf_size
      (collect_lazy_iovecs page_size mm pm heap memalign_ok).iovs :=
    ⟨fun x hx => ⟨(h1.1 x hx).1, h2 x hx, (h1.1 x hx).2.2⟩, h1.2⟩
  intro iov hiov
  exact ((update_calls_inv B _ hB calls _ hc h3).1 iov hiov).2.1

/-! ## Lengths and coverage of the specified pieces -/

theorem total_len_append (l1 l2 : List lazy_iovec) :
    total_len (l1 ++ l2) = total_len l1 + total_len l2 := by
  simp [total_len]

theorem covered_append (l1 l2 : List lazy_iovec) (a : Nat) :
    covered (l1 ++ l2) a ↔ covered l1 a ∨ covered l2 a := by
  unfold covered
  constructor
  · rintro ⟨x, hx, hxa⟩
    rcases List.mem_append.1 hx with h | h
    · exact Or.inl ⟨x, h, hxa⟩
    · exact Or.inr ⟨x, h, hxa⟩
  · rintro (⟨x, hx, hxa⟩ | ⟨x, hx, hxa⟩)
    · exact ⟨x, List.mem_append_left _ hx, hxa⟩
    · exact ⟨x, List.mem_append_right _ hx, hxa⟩

theorem cut_at_props :
    ∀ (cs : List Nat) (s e : Nat), s < e → (∀ c ∈ cs, s < c ∧ c < e) →
    cs.Pairwise (fun a b => a < b) →
    total_len (cut_at s cs e) = e - s ∧
    ∀ a, covered (cut_at s cs e) a ↔ s ≤ a ∧ a < e := by
  intro cs
  induction cs with
  | nil =>
    intro s e hse _ _
    refine ⟨by simp [cut_at, total_len], fun a => ?_⟩
    simp only [cut_at, covered, lazy_iovec.mem, List.mem_singleton, exists_eq_left]
    omega
  | cons c cs ih =>
    intro s e hse hc hp
    obtain ⟨hc1, hc2⟩ := hc c (List.mem_cons_self _ _)
    obtain ⟨ih1, ih2⟩ := ih c e hc2
      (fun c' h' => ⟨(List.pairwise_cons.1 hp).1 c' h', (hc c' (List.mem_cons_of_mem _ h')).2⟩)
      (List.pairwise_cons.1 hp).2
    rw [cut_at]
    refine ⟨by rw [total_len_cons, ih1]; simp only; omega, fun a => ?_⟩
    rw [covered_cons, ih2]
    unfold lazy_iovec.mem
    simp only
    omega

theorem cut_points_sorted (vmas : List VmaEntry) (s e : Nat) (hv : vmas_sorted vmas) :
    (cut_points vmas s e).Pairwise (fun a b => a < b) ∧
    ∀ c ∈ cut_points vmas s e, s < c ∧ c < e := by
  unfold cut_points
  refine ⟨List.Pairwise.filter _ ?_, fun c hc => by simpa using (List.mem_filter.1 hc).2⟩
  rw [List.pairwise_map]
  refine List.Pairwise.imp_of_mem ?_ hv.1
  intro a b _ hb hab
  have := hv.2 b hb
  omega

theorem spec_pieces_props (page_size : Nat) (vmas : List VmaEntry) (pe : PagemapEntry)
    (hv : vmas_sorted vmas) (hpos : 0 < pe.nr_pages * page_size) :
    total_len (spec_pieces page_size vmas pe) = pe.nr_pages * page_size ∧
    ∀ a, covered (spec_pieces page_size vmas pe) a ↔
      pe.vaddr ≤ a ∧ a < pe.vaddr + pe.nr_pages * page_size := by
  obtain ⟨h1, h2⟩ := cut_points_sorted vmas pe.vaddr (pe.vaddr + pe.nr_pages * page_size) hv
  obtain ⟨h3, h4⟩ := cut_at_props _ pe.vaddr (pe.vaddr + pe.nr_pages * page_size)
    (by omega) h2 h1
  unfold spec_pieces
  exact ⟨by rw [h3]; omega, h4⟩

theorem spec_iovs_total_len (page_size B : Nat) (hps : 0 < page_size) (vmas : List VmaEntry)
    (hv : vmas_sorted vmas) :
    ∀ (pm : List PagemapEntry), pagemap_bounded page_size B pm →
    total_len (spec_iovs page_size vmas pm) = lazy_pages pm * page_size := by
  intro pm
  induction pm with
  | nil => intro _; simp [spec_iovs, lazy_pages, total_len]
  | cons pe pes ih =>
    intro hb
    have ih' := ih (fun pe' h => hb pe' (List.mem_cons_of_mem _ h))
    rw [spec_iovs_cons]
    by_cases hlazy : pagemap_lazy pe = true
    · have hl : lazy_pages (pe :: pes) = pe.nr_pages + lazy_pages pes := by
        simp [lazy_pages, List.filter_cons, hlazy]
      obtain ⟨hnr, _⟩ := hb pe (List.mem_cons_self _ _) hlazy
      simp only [hlazy, if_true]
      rw [total_len_append, ih', hl,
        (spec_pieces_props page_size vmas pe hv (Nat.mul_pos hnr hps)).1, Nat.add_mul]
    · have hl : lazy_pages (pe :: pes) = lazy_pages pes := by
        simp [lazy_pages, List.filter_cons, hlazy]
      simp only [hlazy, Bool.false_eq_true, if_false]
      rw [ih', hl]

theorem collect_lazy_iovecs_spec (page_size B : Nat) (hB : B < U64) (hps : 0 < page_size)
    (vmas : List VmaEntry) (pm : List PagemapEntry) (heap : Nat)
    (hs : pagemap_sorted page_size pm) (hb : pagemap_bounded page_size B pm)
    (hv : vmas_sorted vmas) (hcov : pagemap_covered page_size vmas pm)
    (hheap : pm.length + vmas.length ≤ heap) :
    ∃ q, collect_pagemap page_size pm vmas 0 0 heap = some q ∧
      collect_lazy_iovecs page_size (some vmas) pm heap true =
        { ret := q.nr_pages, iovs := spec_iovs page_size vmas pm,
          buf_size := to_ulong q.max_iov_len } ∧
      ∀ y ∈ spec_iovs page_size vmas pm, ∃ v ∈ vmas, within_vma y v := by
  obtain ⟨q, hq, h1, h2⟩ := collect_pagemap_spec page_size B hB hps pm vmas 0 0 heap
    hs hb hv hcov hheap
  refine ⟨q, hq, ?_, by rw [← h1]; exact h2⟩
  unfold collect_lazy_iovecs
  simp only [hq, if_true, h1]

theorem two_page_pagemap_covered : pagemap_covered 4096 two_vmas two_page_pagemap := by
  intro pe hpe _ a h1 h2
  simp only [two_page_pagemap, List.mem_singleton] at hpe
  subst hpe
  simp only [two_vmas, List.mem_cons, List.mem_singleton, List.not_mem_nil, or_false,
    exists_eq_or_imp, exists_eq_left]
  simp only at h1 h2
  omega

theorem two_vmas_sorted : vmas_sorted two_vmas := by
  unfold vmas_sorted two_vmas
  simp

/-! ## Delivery in the two phases -/

theorem complete_page_fault_fault_phase (page_size : Nat) (lpi : lazy_pages_info)
    (vaddr m : Nat) (rc copy : Int)
    (hrep : representable lpi.iovs) (hsort : sorted_by_base lpi.iovs)
    (hno : non_overlapping lpi.iovs) (hfault : lpi.remaining = false)
    (hlen : m * page_size < 2147483648)
    (hin : ∀ a, vaddr ≤ a → a < vaddr + m * page_size → covered lpi.iovs a)
    (hcnt : lpi.copied_pages + m < U64)
    (hok : (complete_page_fault page_size lpi vaddr (m : Int) rc copy true).1 = 0) :
    (complete_page_fault page_size lpi vaddr (m : Int) rc copy true).2.copied_pages
      = lpi.copied_pages + m ∧
    (complete_page_fault page_size lpi vaddr (m : Int) rc copy true).2.total_pages
      = lpi.total_pages ∧
    total_len (complete_page_fault page_size lpi vaddr (m : Int) rc copy true).2.iovs
      + m * page_size = total_len lpi.iovs := by
  have hcp : to_ulong ((lpi.copied_pages : Int) + (m : Int)) = lpi.copied_pages + m := by
    have := to_ulong_natCast (lpi.copied_pages + m) hcnt
    rw [← this]; push_cast; rfl
  have hl : to_int ((to_ulong ((m : Int) * (page_size : Int)) : Nat) : Int)
      = ((m * page_size : Nat) : Int) := by
    have h1 : to_ulong ((m : Int) * (page_size : Int)) = m * page_size := by
      have := to_ulong_natCast (m * page_size) (by unfold U64; omega)
      rw [← this]; push_cast; rfl
    rw [h1, to_int_natCast _ hlen]
  obtain ⟨h1, _, h3⟩ := update_spec lpi.iovs vaddr (m * page_size) hrep hsort hno hlen hin
  unfold complete_page_fault at hok ⊢
  rw [uffd_copy_eq] at hok ⊢
  by_cases hc : (rc = 0 ∧ to_ulong copy = to_ulong ((m : Int) * (page_size : Int))) ∨
      (rc ≠ 0 ∧ copy = -EEXIST)
  · simp only [hc, if_true, ne_eq, not_true_eq_false, if_false, hfault, Bool.false_eq_true,
      hl, hcp]
    exact ⟨trivial, trivial, h3⟩
  · simp [hc] at hok

theorem complete_page_fault_drain_phase (page_size : Nat) (lpi : lazy_pages_info)
    (vaddr : Nat) (nr rc copy : Int) (alloc_ok : Bool) (hdrain : lpi.remaining = true) :
    (complete_page_fault page_size lpi vaddr nr rc copy alloc_ok).2.iovs = lpi.iovs := by
  unfold complete_page_fault
  rw [uffd_copy_eq]
  by_cases hc : (rc = 0 ∧ to_ulong copy = to_ulong (nr * (page_size : Int))) ∨
      (rc ≠ 0 ∧ copy = -EEXIST)
  · simp [hc, hdrain]
  · simp [hc]

theorem complete_page_fault_remaining (page_size : Nat) (lpi : lazy_pages_info)
    (vaddr : Nat) (nr rc copy : Int) (alloc_ok : Bool) :
    (complete_page_fault page_size lpi vaddr nr rc copy alloc_ok).2.remaining
      = lpi.remaining := by
  unfold complete_page_fault
  rw [uffd_copy_eq]
  by_cases hc : (rc = 0 ∧ to_ulong copy = to_ulong (nr * (page_size : Int))) ∨
      (rc ≠ 0 ∧ copy = -EEXIST)
  · by_cases hr : lpi.remaining = true
    · simp [hc, hr]
    · simp [hc, hr]
  · simp [hc]

theorem run_completions_drain (page_size : Nat) :
    ∀ (cs : List io_completion) (lpi : lazy_pages_info), lpi.remaining = true →
    (run_completions page_size lpi cs).iovs = lpi.iovs ∧
    (run_completions page_size lpi cs).remaining = true := by
  intro cs
  induction cs with
  | nil => intro lpi h; exact ⟨rfl, h⟩
  | cons c cs ih =>
    intro lpi h
    unfold run_completions at ih ⊢
    rw [List.foldl_cons]
    have h1 := complete_page_fault_drain_phase page_size lpi c.vaddr c.nr c.rc c.copy
      c.alloc_ok h
    have h2 := complete_page_fault_remaining page_size lpi c.vaddr c.nr c.rc c.copy c.alloc_ok
    obtain ⟨ih1, ih2⟩ := ih _ (h2.trans h)
    exact ⟨ih1.trans h1, ih2⟩

theorem uffd_handle_pages_drain (page_size : Nat) (lpi : lazy_pages_info) (address : Nat)
    (nr : Int) (flags : Nat) (env : reader_env) (h : lpi.remaining = true) :
    (uffd_handle_pages page_size lpi address nr flags env).2.iovs = lpi.iovs ∧
    (uffd_handle_pages page_size lpi address nr flags env).2.remaining = true := by
  obtain ⟨h1, h2⟩ := run_completions_drain page_size env.completions lpi h
  unfold uffd_handle_pages uffd_seek_or_zero_pages uffd_zero
  by_cases hs : env.seek_ret = 0
  · simp [hs, h]
  · by_cases hz : pagemap_zero env.pe = true
    · by_cases hrc : env.zero_rc = 0
      · simp [hs, hz, hrc, h]
      · simp [hs, hz, hrc, h]
    · by_cases hr : env.read_ret ≤ 0
      · simp [hs, hz, hr, h1, h2]
      · simp [hs, hz, hr, h1, h2]

theorem handle_remaining_loop_drain (page_size : Nat) :
    ∀ (l : List lazy_iovec) (lpi : lazy_pages_info) (envs : Nat → reader_env) (i : Nat),
    lpi.remaining = true →
    (handle_remaining_loop page_size l lpi envs i).2.iovs = lpi.iovs := by
  intro l
  induction l with
  | nil => intro lpi envs i _; rfl
  | cons x rest ih =>
    intro lpi envs i h
    obtain ⟨h1, h2⟩ := uffd_handle_pages_drain page_size lpi x.base
      (to_int ((x.len / page_size : Nat) : Int)) 0 (envs i) h
    rw [handle_remaining_loop]
    split
    · exact h1
    · exact (ih _ envs (i + 1) h2).trans h1

/-- The drain of a task never changes its interval list: the walk of
`handle_remaining_pages` sees the list as it was on entry. -/
theorem handle_remaining_pages_iovs (page_size : Nat) (lpi : lazy_pages_info)
    (envs : Nat → reader_env) :
    (handle_remaining_pages page_size lpi envs).2.iovs = lpi.iovs := by
  unfold handle_remaining_pages
  exact handle_remaining_loop_drain page_size _ _ envs 0 rfl

/-! ## The two zero-page paths of `uffd_handle_pages` -/

/-- When `seek_pagemap` finds no record, `uffd_handle_pages` takes the early
return of `uffd_seek_or_zero_pages`: it returns 0 and the task is untouched, so
no ioctl is issued. -/
theorem uffd_handle_pages_no_record (page_size : Nat) (lpi : lazy_pages_info)
    (address : Nat) (nr : Int) (flags : Nat) (env : reader_env) (hseek : env.seek_ret = 0) :
    uffd_handle_pages page_size lpi address nr flags env = (0, lpi) := by
  simp [uffd_handle_pages, uffd_seek_or_zero_pages, hseek]

/-- When `seek_pagemap` finds a record flagged zero, `uffd_handle_pages` goes
through `uffd_zero`: it issues `UFFDIO_ZEROPAGE` on the range and returns 0 or
-1 as the ioctl succeeds or fails. -/
theorem uffd_handle_pages_zero_record (page_size : Nat) (lpi : lazy_pages_info)
    (address : Nat) (nr : Int) (flags : Nat) (env : reader_env)
    (hseek : env.seek_ret ≠ 0) (hzero : pagemap_zero env.pe = true) :
    (uffd_handle_pages page_size lpi address nr flags env).2.ioctls =
      lpi.ioctls ++ [uffd_ioctl.zeropage address (to_ulong (page_size * nr))] ∧
    (uffd_handle_pages page_size lpi address nr flags env).1 =
      (if env.zero_rc ≠ 0 then -1 else 0) := by
  unfold uffd_handle_pages uffd_seek_or_zero_pages uffd_zero
  by_cases hrc : env.zero_rc = 0
  · simp [hseek, hzero, hrc]
  · simp [hseek, hzero, hrc]

/-! ## The claims -/

/-- C1: on a list sorted by `base` with pairwise non-overlapping intervals (each
ending below `2^64`), for a range `[addr, addr + len)` with `len > 0` contained
in the union of the intervals, `update_lazy_iovecs` (when `xzalloc` succeeds)
returns 0 and leaves a list that covers exactly the addresses covered before
minus `[addr, addr + len)`. -/
theorem C1_update_removes_range (l : List lazy_iovec) (addr : Nat) (len : Int)
    (hr : representable l) (hs : sorted_by_base l) (hn : non_overlapping l)
    (hpos : 0 < len) (hint : is_int len)
    (hc : ∀ a : Nat, addr ≤ a → (a : Int) < addr + len → covered l a) :
    (update_lazy_iovecs true l addr len).1 = 0 ∧
    ∀ a : Nat, covered (update_lazy_iovecs true l addr len).2 a ↔
      covered l a ∧ ¬ (addr ≤ a ∧ (a : Int) < addr + len) := by
  obtain ⟨n, rfl⟩ := Int.eq_ofNat_of_zero_le (le_of_lt hpos)
  have hlt : n < 2147483648 := by have := hint.2; omega
  obtain ⟨h1, h2, _⟩ := update_spec l addr n hr hs hn hlt
    (fun a ha1 ha2 => hc a ha1 (by omega))
  refine ⟨h1, fun a => ?_⟩
  rw [h2 a]
  constructor
  · rintro ⟨h, h'⟩
    exact ⟨h, fun hh => h' ⟨hh.1, by omega⟩⟩
  · rintro ⟨h, h'⟩
    exact ⟨h, fun hh => h' ⟨hh.1, by omega⟩⟩

theorem C1_update_removes_range_witness :
    (update_lazy_iovecs true [⟨0x1000, 0x2000⟩, ⟨0x3000, 0x1000⟩, ⟨0x8000, 0x2000⟩]
      0x2000 0x2000).1 = 0 ∧
    ∀ a : Nat, covered (update_lazy_iovecs true
        [⟨0x1000, 0x2000⟩, ⟨0x3000, 0x1000⟩, ⟨0x8000, 0x2000⟩] 0x2000 0x2000).2 a ↔
      covered [⟨0x1000, 0x2000⟩, ⟨0x3000, 0x1000⟩, ⟨0x8000, 0x2000⟩] a ∧
        ¬ (0x2000 ≤ a ∧ (a : Int) < (0x2000 : Nat) + 0x2000) :=
  C1_update_removes_range [⟨0x1000, 0x2000⟩, ⟨0x3000, 0x1000⟩, ⟨0x8000, 0x2000⟩] 0x2000 0x2000
    (by simp [representable, U64])
    (by simp [sorted_by_base])
    (by simp only [non_overlapping, lazy_iovec.mem, List.pairwise_cons, List.mem_cons,
          List.mem_singleton, List.not_mem_nil, forall_eq_or_imp, forall_eq]
        simp only [IsEmpty.forall_iff, implies_true, List.Pairwise.nil, and_true]
        refine ⟨⟨?_, ?_⟩, ?_⟩ <;> intro a <;> omega)
    (by decide)
    (by simp [is_int])
    (by intro a h1 h2
        simp only [covered, lazy_iovec.mem, List.mem_cons, List.mem_singleton,
          List.not_mem_nil, or_false, exists_eq_or_imp, exists_eq_left]
        omega)

/-- C2, as stated, fails. In the drain phase `complete_page_fault` on a task with
`remaining` set and the interval `(0x1000, 0x1000)` succeeds, counts the page
and leaves the interval in the list, so the equation that held before no longer
holds. In the fault-driven phase a second `UFFDIO_COPY` of a page already
delivered ends with `copy == -EEXIST`, `complete_page_fault` succeeds and counts
the page again while no interval is left to trim. -/
theorem C2_delivery_counterexample :
    (coverage_invariant 4096 draining_task ∧
     (complete_page_fault 4096 draining_task 0x1000 1 0 4096 true).1 = 0 ∧
     (complete_page_fault 4096 draining_task 0x1000 1 0 4096 true).2.iovs
       = [⟨0x1000, 0x1000⟩] ∧
     (complete_page_fault 4096 draining_task 0x1000 1 0 4096 true).2.copied_pages = 1 ∧
     ¬ coverage_invariant 4096
        (complete_page_fault 4096 draining_task 0x1000 1 0 4096 true).2) ∧
    (coverage_invariant 4096 delivered_task ∧ delivered_task.remaining = false ∧
     (complete_page_fault 4096 delivered_task 0x1000 1 (-1) (-17) true).1 = 0 ∧
     (complete_page_fault 4096 delivered_task 0x1000 1 (-1) (-17) true).2.copied_pages = 2 ∧
     ¬ coverage_invariant 4096
        (complete_page_fault 4096 delivered_task 0x1000 1 (-1) (-17) true).2) := by
  unfold coverage_invariant
  decide

/-- C2, amended: after setup (`ud_open` with `collect_lazy_iovecs`, on a pagemap
and a VMA list sorted by address whose lazy records are covered by the VMAs, with
fewer than `2^31` lazy pages and allocations that succeed) `copied_pages` is 0
and the sum of the interval lengths equals `total_pages * page_size`; every
page delivery of the fault-driven phase (`complete_page_fault` returning 0 with
`remaining` unset) of a range contained in the intervals of a sorted,
non-overlapping list keeps the sum of the interval lengths plus
`copied_pages * page_size` equal to `total_pages * page_size`; and a delivery of
the drain phase (`remaining` set) leaves the interval list as it is. -/
theorem C2_coverage_fault_phase (page_size B : Nat) (hB : B < U64) (hps : 0 < page_size)
    (pid fd open_ret : Int) (vmas : List VmaEntry) (pm : List PagemapEntry) (heap : Nat)
    (hpid : 0 ≤ pid) (hfd : 0 ≤ fd) (hopen : 0 < open_ret)
    (hs : pagemap_sorted page_size pm) (hb : pagemap_bounded page_size B pm)
    (hv : vmas_sorted vmas) (hcov : pagemap_covered page_size vmas pm)
    (hheap : pm.length + vmas.length ≤ heap) (hpages : lazy_pages pm < 2147483648)
    (lpi : lazy_pages_info) (vaddr : Nat) (nr rc copy : Int)
    (hrep : representable lpi.iovs) (hsort : sorted_by_base lpi.iovs)
    (hno : non_overlapping lpi.iovs) (hinv : coverage_invariant page_size lpi)
    (hfault : lpi.remaining = false) (hnr : 0 < nr) (hlen : nr * page_size < 2147483648)
    (hin : ∀ a : Nat, vaddr ≤ a → (a : Int) < vaddr + nr * page_size → covered lpi.iovs a)
    (hcnt : lpi.copied_pages + nr < U64)
    (hok : (complete_page_fault page_size lpi vaddr nr rc copy true).1 = 0) :
    (∃ lpi0, ud_open page_size 4 pid fd open_ret (some vmas) pm heap true = (0, some lpi0) ∧
      lpi0.copied_pages = 0 ∧ lpi0.remaining = false ∧ coverage_invariant page_size lpi0) ∧
    coverage_invariant page_size (complete_page_fault page_size lpi vaddr nr rc copy true).2 ∧
    (complete_page_fault page_size { lpi with remaining := true } vaddr nr rc copy true).2.iovs
      = lpi.iovs := by
  refine ⟨?_, ?_, complete_page_fault_drain_phase page_size _ vaddr nr rc copy true rfl⟩
  · obtain ⟨q, hq, h, _⟩ := collect_lazy_iovecs_spec page_size B hB hps vmas pm heap
      hs hb hv hcov hheap
    have hnrp := collect_pagemap_nr_pages page_size pm vmas 0 0 heap q (le_refl _)
      (by omega) hq
    rw [zero_add] at hnrp
    have hret : ¬ ((lazy_pages pm : Int) < 0) := by omega
    have hpid' : ¬ pid < 0 := by omega
    have hfd' : ¬ fd < 0 := by omega
    have hopen' : ¬ open_ret ≤ 0 := by omega
    have hud : ud_open page_size 4 pid fd open_ret (some vmas) pm heap true =
        (0, some { pid := pid, iovs := spec_iovs page_size vmas pm,
                   total_pages := to_ulong (lazy_pages pm : Int), copied_pages := 0,
                   buf_size := to_ulong q.max_iov_len, remaining := false, ioctls := [] }) := by
      unfold ud_open
      simp only [ne_eq, not_true_eq_false, if_false, hpid', hfd', hopen', h, hnrp, hret,
        lpi_init]
    refine ⟨_, hud, rfl, rfl, ?_⟩
    unfold coverage_invariant
    simp only
    rw [spec_iovs_total_len page_size B hps vmas hv pm hb,
      to_ulong_natCast _ (by unfold U64; omega)]
    omega
  · obtain ⟨m, rfl⟩ := Int.eq_ofNat_of_zero_le (le_of_lt hnr)
    obtain ⟨h1, h2, h3⟩ := complete_page_fault_fault_phase page_size lpi vaddr m rc copy
      hrep hsort hno hfault (by exact_mod_cast hlen)
      (fun a ha1 ha2 => hin a ha1 (by omega))
      (by exact_mod_cast hcnt) hok
    unfold coverage_invariant at hinv ⊢
    rw [h1, h2, Nat.add_mul]
    omega

theorem C2_coverage_fault_phase_witness :
    (∃ lpi0, ud_open 4096 4 100 5 1 (some two_vmas) two_page_pagemap 8 true = (0, some lpi0) ∧
      lpi0.copied_pages = 0 ∧ lpi0.remaining = false ∧ coverage_invariant 4096 lpi0) ∧
    coverage_invariant 4096 (complete_page_fault 4096 one_page_task 0x1000 1 0 4096 true).2 ∧
    (complete_page_fault 4096 { one_page_task with remaining := true } 0x1000 1 0 4096 true).2.iovs
      = one_page_task.iovs :=
  C2_coverage_fault_phase 4096 0x3000 (by decide) (by decide) 100 5 1 two_vmas two_page_pagemap 8
    (by decide) (by decide) (by decide)
    (by simp [pagemap_sorted, two_page_pagemap])
    (by simp [pagemap_bounded, two_page_pagemap])
    two_vmas_sorted two_page_pagemap_covered (by decide) (by decide)
    one_page_task 0x1000 1 0 4096
    (by simp [representable, one_page_task, lpi_init, U64])
    (by simp [sorted_by_base, one_page_task, lpi_init])
    (by simp [non_overlapping, one_page_task, lpi_init])
    (by unfold coverage_invariant; decide)
    rfl (by decide) (by decide)
    (by intro a h1 h2
        simp only [one_page_task, lpi_init, covered, lazy_iovec.mem, List.mem_singleton,
          exists_eq_left]
        omega)
    (by decide) (by decide)

/-- C3: the list built by `collect_lazy_iovecs` from a pagemap sorted by address
(records holding at least one page and ending at or below `B`, a bound at least
`2^31` below the top of the address space), and every list obtained from it by
a sequence of `update_lazy_iovecs` calls with any address and any `int` length,
is strictly sorted by `base` and has no two overlapping intervals. This holds
for every VMA list, sorted or not, and whether or not the allocations succeed. -/
theorem C3_sorted_non_overlapping (page_size B : Nat) (hB : B + 2147483648 ≤ U64)
    (hps : 0 < page_size) (mm : Option (List VmaEntry)) (pm : List PagemapEntry)
    (heap : Nat) (memalign_ok : Bool) (calls : List (Nat × Int × Bool))
    (hs : pagemap_sorted page_size pm) (hb : pagemap_bounded page_size B pm)
    (hc : ∀ c ∈ calls, is_int c.2.1) :
    strictly_sorted_by_base
      (update_calls (collect_lazy_iovecs page_size mm pm heap memalign_ok).iovs calls) ∧
    non_overlapping
      (update_calls (collect_lazy_iovecs page_size mm pm heap memalign_ok).iovs calls) :=
  iov_inv_sorted B B _
    (update_calls_inv B B hB calls _ hc
      (collect_lazy_iovecs_inv page_size B (by omega) hps mm pm heap memalign_ok hs hb))

theorem C3_sorted_non_overlapping_witness :
    strictly_sorted_by_base
      (update_calls (collect_lazy_iovecs 4096
        (some [⟨0x1000, 0x2000⟩, ⟨0x2000, 0x4000⟩])
        [⟨0x1000, 3, true, false⟩] 8 true).iovs [(0x3000, 4096, true)]) ∧
    non_overlapping
      (update_calls (collect_lazy_iovecs 4096
        (some [⟨0x1000, 0x2000⟩, ⟨0x2000, 0x4000⟩])
        [⟨0x1000, 3, true, false⟩] 8 true).iovs [(0x3000, 4096, true)]) :=
  C3_sorted_non_overlapping 4096 9223372036854775808 (by decide) (by decide)
    (some [⟨0x1000, 0x2000⟩, ⟨0x2000, 0x4000⟩]) [⟨0x1000, 3, true, false⟩] 8 true
    [(0x3000, 4096, true)]
    (by simp [pagemap_sorted])
    (by simp [pagemap_bounded])
    (by simp [is_int])

/-- C4: for a pagemap and a VMA list sorted by address in which every lazy record
(at least one page long, ending at or below `B < 2^64`) is covered by the VMAs,
`collect_lazy_iovecs`, when its allocations succeed, builds exactly the list
obtained by cutting every lazy record, in pagemap order, at each VMA end that
falls strictly inside it, and nothing for the other records; the pieces of a
record cover exactly the addresses of the record. -/
theorem C4_collect_cuts_at_vma_ends (page_size B : Nat) (hB : B < U64) (hps : 0 < page_size)
    (vmas : List VmaEntry) (pm : List PagemapEntry) (heap : Nat)
    (hs : pagemap_sorted page_size pm) (hb : pagemap_bounded page_size B pm)
    (hv : vmas_sorted vmas) (hcov : pagemap_covered page_size vmas pm)
    (hheap : pm.length + vmas.length ≤ heap) :
    (collect_lazy_iovecs page_size (some vmas) pm heap true).iovs
      = spec_iovs page_size vmas pm ∧
    ∀ pe ∈ pm, pagemap_lazy pe = true →
      ∀ a, covered (spec_pieces page_size vmas pe) a ↔
        pe.vaddr ≤ a ∧ a < pe.vaddr + pe.nr_pages * page_size := by
  obtain ⟨q, _, h, _⟩ := collect_lazy_iovecs_spec page_size B hB hps vmas pm heap
    hs hb hv hcov hheap
  refine ⟨by rw [h], fun pe hpe hl => ?_⟩
  exact (spec_pieces_props page_size vmas pe hv (Nat.mul_pos (hb pe hpe hl).1 hps)).2

theorem C4_collect_cuts_at_vma_ends_witness :
    ((collect_lazy_iovecs 4096 (some two_vmas) two_page_pagemap 8 true).iovs
      = spec_iovs 4096 two_vmas two_page_pagemap ∧
     ∀ pe ∈ two_page_pagemap, pagemap_lazy pe = true →
      ∀ a, covered (spec_pieces 4096 two_vmas pe) a ↔
        pe.vaddr ≤ a ∧ a < pe.vaddr + pe.nr_pages * 4096) ∧
    spec_iovs 4096 two_vmas two_page_pagemap = [⟨0x1000, 0x1000⟩, ⟨0x2000, 0x1000⟩] :=
  ⟨C4_collect_cuts_at_vma_ends 4096 0x3000 (by decide) (by decide) two_vmas two_page_pagemap 8
    (by simp [pagemap_sorted, two_page_pagemap])
    (by simp [pagemap_bounded, two_page_pagemap])
    two_vmas_sorted two_page_pagemap_covered (by decide), by decide⟩

/-- C5, as stated, fails: the VMA list `[0x2000, 0x3000)` and the pagemap with one
lazy record `[0x1000, 0x3000)` are sorted by address, and `collect_lazy_iovecs`
builds the interval `(0x1000, 0x2000)`, which lies within no VMA. -/
theorem C5_hole_counterexample :
    pagemap_sorted 4096 two_page_pagemap ∧ vmas_sorted hole_vmas ∧
    (collect_lazy_iovecs 4096 (some hole_vmas) two_page_pagemap 8 true).iovs
      = [⟨0x1000, 0x2000⟩] ∧
    ¬ ∃ v ∈ hole_vmas, within_vma ⟨0x1000, 0x2000⟩ v := by
  refine ⟨by simp [pagemap_sorted, two_page_pagemap], by simp [vmas_sorted, hole_vmas],
    by decide, ?_⟩
  simp [hole_vmas, within_vma]

/-- C5, amended: for a pagemap and a VMA list sorted by address in which every
lazy record (at least one page long, ending at or below `B < 2^64`) is covered by
the VMAs, every interval of the list built by `collect_lazy_iovecs` lies within
a single VMA: there is a VMA `V` with `V.start <= base` and `base + len <= V.end`. -/
theorem C5_intervals_within_vma (page_size B : Nat) (hB : B < U64) (hps : 0 < page_size)
    (vmas : List VmaEntry) (pm : List PagemapEntry) (heap : Nat) (memalign_ok : Bool)
    (hs : pagemap_sorted page_size pm) (hb : pagemap_bounded page_size B pm)
    (hv : vmas_sorted vmas) (hcov : pagemap_covered page_size vmas pm)
    (hheap : pm.length + vmas.length ≤ heap) :
    ∀ iov ∈ (collect_lazy_iovecs page_size (some vmas) pm heap memalign_ok).iovs,
      ∃ v ∈ vmas, within_vma iov v := by
  obtain ⟨q, hq, h, hw⟩ := collect_lazy_iovecs_spec page_size B hB hps vmas pm heap
    hs hb hv hcov hheap
  cases memalign_ok with
  | true => rw [h]; exact hw
  | false =>
    intro iov hiov
    simp [collect_lazy_iovecs, hq] at hiov

theorem C5_intervals_within_vma_witness :
    (collect_lazy_iovecs 4096 (some two_vmas) two_page_pagemap 8 true).iovs
      = [⟨0x1000, 0x1000⟩, ⟨0x2000, 0x1000⟩] ∧
    ∀ iov ∈ (collect_lazy_iovecs 4096 (some two_vmas) two_page_pagemap 8 true).iovs,
      ∃ v ∈ two_vmas, within_vma iov v :=
  ⟨by decide,
   C5_intervals_within_vma 4096 0x3000 (by decide) (by decide) two_vmas two_page_pagemap 8 true
    (by simp [pagemap_sorted, two_page_pagemap])
    (by simp [pagemap_bounded, two_page_pagemap])
    two_vmas_sorted two_page_pagemap_covered (by decide)⟩

/-- C6: for a page count `n` in the non-negative range of `int`, a page size
of at most `2^32`, a `copy` field in the range of `__s64` and a counter that
does not wrap, `uffd_copy` issues one `UFFDIO_COPY` of `n * page_size` bytes at
`addr`, returns 0 exactly when the ioctl returns 0 with `copy == n * page_size`
or returns an error with `copy == -EEXIST`, then grows `copied_pages` by `n`,
and otherwise returns -1 with `copied_pages` unchanged. -/
theorem C6_uffd_copy_result (page_size : Nat) (lpi : lazy_pages_info) (addr : Nat)
    (n rc copy : Int) (hn0 : 0 ≤ n) (hn : is_int n) (hps : page_size ≤ 4294967296)
    (hcopy : -9223372036854775808 ≤ copy ∧ copy < 9223372036854775808)
    (hcnt : lpi.copied_pages + n < U64) :
    ((uffd_copy page_size lpi addr n rc copy).1 = 0 ↔
      (rc = 0 ∧ copy = n * page_size) ∨ (rc ≠ 0 ∧ copy = -EEXIST)) ∧
    ((uffd_copy page_size lpi addr n rc copy).1 = 0 →
      ((uffd_copy page_size lpi addr n rc copy).2.copied_pages : Int) = lpi.copied_pages + n) ∧
    ((uffd_copy page_size lpi addr n rc copy).1 ≠ 0 →
      (uffd_copy page_size lpi addr n rc copy).1 = -1 ∧
      (uffd_copy page_size lpi addr n rc copy).2.copied_pages = lpi.copied_pages) ∧
    (uffd_copy page_size lpi addr n rc copy).2.ioctls =
      lpi.ioctls ++ [uffd_ioctl.copy addr (n * page_size).toNat] := by
  have hprod : n * page_size < 9223372036854775808 ∧ 0 ≤ n * (page_size : Int) := by
    have h1 : n * (page_size : Int) ≤ 2147483647 * 4294967296 :=
      Int.mul_le_mul (by have := hn.2; omega) (by exact_mod_cast hps) (by omega) (by omega)
    refine ⟨?_, Int.mul_nonneg hn0 (by omega)⟩
    norm_num at h1
    omega
  rw [uffd_copy_eq]
  generalize n * (page_size : Int) = p at hprod ⊢
  have hlen : to_ulong p = p.toNat := by unfold to_ulong; omega
  have hcp : ((to_ulong (lpi.copied_pages + n) : Nat) : Int) = lpi.copied_pages + n := by
    simp only [U64] at hcnt
    unfold to_ulong; omega
  have hcmp : to_ulong copy = p.toNat ↔ copy = p := by unfold to_ulong; omega
  simp only [hlen, hcmp]
  by_cases h : (rc = 0 ∧ copy = p) ∨ (rc ≠ 0 ∧ copy = -EEXIST)
  · rw [if_pos h]
    exact ⟨⟨fun _ => h, fun _ => rfl⟩, fun _ => hcp, fun hne => absurd rfl hne, rfl⟩
  · rw [if_neg h]
    refine ⟨⟨fun h0 => ?_, fun hh => absurd hh h⟩, fun h0 => ?_, fun _ => ⟨rfl, rfl⟩, rfl⟩
    · simp only at h0; omega
    · simp only at h0; omega

theorem C6_uffd_copy_result_witness :
    ((uffd_copy 4096 { lpi_init with copied_pages := 5 } 0x1000 2 (-1) (-17)).1 = 0 ↔
      ((-1 : Int) = 0 ∧ (-17 : Int) = 2 * (4096 : Nat)) ∨ ((-1 : Int) ≠ 0 ∧ (-17 : Int) = -EEXIST)) ∧
    ((uffd_copy 4096 { lpi_init with copied_pages := 5 } 0x1000 2 (-1) (-17)).1 = 0 →
      ((uffd_copy 4096 { lpi_init with copied_pages := 5 } 0x1000 2 (-1) (-17)).2.copied_pages : Int)
        = ({ lpi_init with copied_pages := 5 } : lazy_pages_info).copied_pages + 2) ∧
    ((uffd_copy 4096 { lpi_init with copied_pages := 5 } 0x1000 2 (-1) (-17)).1 ≠ 0 →
      (uffd_copy 4096 { lpi_init with copied_pages := 5 } 0x1000 2 (-1) (-17)).1 = -1 ∧
      (uffd_copy 4096 { lpi_init with copied_pages := 5 } 0x1000 2 (-1) (-17)).2.copied_pages
        = ({ lpi_init with copied_pages := 5 } : lazy_pages_info).copied_pages) ∧
    (uffd_copy 4096 { lpi_init with copied_pages := 5 } 0x1000 2 (-1) (-17)).2.ioctls =
      ({ lpi_init with copied_pages := 5 } : lazy_pages_info).ioctls ++
        [uffd_ioctl.copy 0x1000 ((2 : Int) * (4096 : Nat)).toNat] :=
  C6_uffd_copy_result 4096 { lpi_init with copied_pages := 5 } 0x1000 2 (-1) (-17)
    (by decide) (by simp [is_int]) (by decide) (by decide)
    (by simp [lpi_init, U64])

/-- C8: when `epoll_run_rfds` returns 0 (the fault-driven phase ended by timeout)
and the drain loop runs to its end (`handle_remaining_pages` fails for no task),
`handle_requests` returns the number of tasks with `copied_pages != total_pages`
and `total_pages > 0`, counted on the tasks as the drain left them; it returns 0
exactly when no task is mismatched. -/
theorem C8_handle_requests_counts (page_size : Nat) (rfds_ret : Int)
    (lpis : List lazy_pages_info) (envs : Nat → Nat → reader_env)
    (htimeout : rfds_ret = 0)
    (hdrain : (drain_tasks page_size envs lpis 0 rfds_ret).1 = true)
    (hlen : lpis.length < 2147483648) :
    (handle_requests page_size rfds_ret lpis envs).1 =
      (((handle_requests page_size rfds_ret lpis envs).2.countP mismatched : Nat) : Int) ∧
    ((handle_requests page_size rfds_ret lpis envs).1 = 0 ↔
      ∀ lpi ∈ (handle_requests page_size rfds_ret lpis envs).2, mismatched lpi = false) := by
  subst htimeout
  have h0 := drain_tasks_ok page_size envs lpis 0 hdrain
  have hl := drain_tasks_length page_size envs lpis 0 0
  have hval : (handle_requests page_size 0 lpis envs) =
      (sum_summaries 0 (drain_tasks page_size envs lpis 0 0).2.2,
        (drain_tasks page_size envs lpis 0 0).2.2) := by
    unfold handle_requests
    simp only [lt_irrefl, if_false, hdrain, if_true, h0]
  rw [hval]
  simp only
  rw [sum_summaries_eq _ 0 (le_refl _) (by rw [hl]; omega), zero_add]
  refine ⟨rfl, ?_⟩
  rw [Int.natCast_eq_zero, List.countP_eq_zero]
  simp

theorem C8_handle_requests_counts_witness :
    ((handle_requests 4096 0 [one_page_task, zero_page_task] mixed_read_env).1 =
      (((handle_requests 4096 0 [one_page_task, zero_page_task] mixed_read_env).2.countP
        mismatched : Nat) : Int) ∧
     ((handle_requests 4096 0 [one_page_task, zero_page_task] mixed_read_env).1 = 0 ↔
      ∀ lpi ∈ (handle_requests 4096 0 [one_page_task, zero_page_task] mixed_read_env).2,
        mismatched lpi = false)) ∧
    (handle_requests 4096 0 [one_page_task, zero_page_task] mixed_read_env).1 = 1 :=
  ⟨C8_handle_requests_counts 4096 0 [one_page_task, zero_page_task] mixed_read_env rfl
    (by decide) (by decide), by decide⟩

/-- C9, as stated, fails: when `handle_remaining_pages` fails for the only task
(the page reader cannot read its page), `handle_requests` and `cr_lazy_pages`
return 1 and not -1, a positive value that is not a count after a clean drain. -/
theorem C9_failed_drain_counterexample :
    (handle_remaining_pages 4096 one_page_task (failing_read_env 0)).1 = -1 ∧
    (handle_requests 4096 0 [one_page_task] failing_read_env).1 = 1 ∧
    cr_lazy_pages 4096 false quiet_server [one_page_task] failing_read_env = 1 := by
  decide

/-- C9, amended: when servicing faults fails (`epoll_run_rfds` returns a negative
value) `handle_requests` returns that negative value, and when
`handle_remaining_pages` fails for some task it returns 1; the value is never 0
then, and `cr_lazy_pages`, once it has reached `handle_requests`, returns the
same value. -/
theorem C9_fatal_error_nonzero (page_size : Nat) (daemon : Bool) (env : server_env)
    (lpis : List lazy_pages_info) (envs : Nat → Nat → reader_env)
    (hreach : reaches_requests daemon env)
    (hfatal : env.epoll_run_rfds < 0 ∨
      (drain_tasks page_size envs lpis 0 env.epoll_run_rfds).1 = false) :
    (handle_requests page_size env.epoll_run_rfds lpis envs).1 =
      (if env.epoll_run_rfds < 0 then env.epoll_run_rfds else 1) ∧
    (handle_requests page_size env.epoll_run_rfds lpis envs).1 ≠ 0 ∧
    cr_lazy_pages page_size daemon env lpis envs =
      (handle_requests page_size env.epoll_run_rfds lpis envs).1 := by
  have hval : (handle_requests page_size env.epoll_run_rfds lpis envs).1 =
      (if env.epoll_run_rfds < 0 then env.epoll_run_rfds else 1) := by
    unfold handle_requests
    by_cases hneg : env.epoll_run_rfds < 0
    · simp only [hneg, if_true]
    · simp only [hneg, if_false]
      rcases hfatal with h | h
      · exact absurd h hneg
      · simp only [h, Bool.false_eq_true, if_false]
        exact drain_tasks_failed page_size envs lpis 0 _ h
  refine ⟨hval, ?_, ?_⟩
  · rw [hval]
    by_cases hneg : env.epoll_run_rfds < 0
    · simp only [hneg, if_true]; omega
    · simp only [hneg, if_false]; decide
  · obtain ⟨h1, h2, h3, h4, h5, h6, h7, h8⟩ := hreach
    unfold cr_lazy_pages
    have hd1 : ¬ (daemon = true ∧ env.daemon_ret = -1) := by
      rintro ⟨hd, hr⟩; rw [h4 hd] at hr; exact absurd hr (by decide)
    have hd2 : ¬ (daemon = true ∧ env.daemon_ret > 0) := by
      rintro ⟨hd, hr⟩; rw [h4 hd] at hr; exact absurd hr (by decide)
    have hd3 : ¬ (env.use_page_server = true ∧ env.connect_to_page_server_to_recv ≠ 0) := by
      rintro ⟨hd, hr⟩; exact hr (h8 hd)
    have hd4 : ¬ env.prepare_lazy_socket < 0 := by omega
    have hd5 : ¬ env.epoll_prepare < 0 := by omega
    simp only [h1, h2, h5, h7, hd1, hd2, hd3, hd4, hd5, ne_eq, not_true_eq_false, if_false]

theorem C9_fatal_error_nonzero_witness :
    (handle_requests 4096 quiet_server.epoll_run_rfds [one_page_task] failing_read_env).1 =
      (if quiet_server.epoll_run_rfds < 0 then quiet_server.epoll_run_rfds else 1) ∧
    (handle_requests 4096 quiet_server.epoll_run_rfds [one_page_task] failing_read_env).1 ≠ 0 ∧
    cr_lazy_pages 4096 false quiet_server [one_page_task] failing_read_env =
      (handle_requests 4096 quiet_server.epoll_run_rfds [one_page_task] failing_read_env).1 :=
  C9_fatal_error_nonzero 4096 false quiet_server [one_page_task] failing_read_env
    (by unfold reaches_requests; decide) (Or.inr (by decide))

/-- C10, at the failing input: for a lazy record of `2^20` pages of 4096 bytes
inside one VMA, `collect_lazy_iovecs` succeeds with the single interval
`(0x100000000, 0x100000000)` of `2^32` bytes, while the maximum length it
recorded, kept in an `int`, is 0: the scratch buffer is allocated with size 0,
the interval is longer than it, and the drain request of `handle_remaining_pages`
for that interval copies `2^32` bytes out of the buffer. -/
theorem C10_buffer_smaller_than_interval :
    (collect_lazy_iovecs 4096 (some big_vmas) big_pagemap 8 true).ret = 0x100000 ∧
    (collect_lazy_iovecs 4096 (some big_vmas) big_pagemap 8 true).iovs
      = [⟨0x100000000, 0x100000000⟩] ∧
    (collect_lazy_iovecs 4096 (some big_vmas) big_pagemap 8 true).buf_size = 0 ∧
    (∃ iov ∈ (collect_lazy_iovecs 4096 (some big_vmas) big_pagemap 8 true).iovs,
      (collect_lazy_iovecs 4096 (some big_vmas) big_pagemap 8 true).buf_size < iov.len) ∧
    ud_open 4096 4 100 5 1 (some big_vmas) big_pagemap 8 true = (0, some big_task) ∧
    (handle_remaining_pages 4096 big_task big_read_env).1 = 0 ∧
    (handle_remaining_pages 4096 big_task big_read_env).2.ioctls
      = [uffd_ioctl.copy 0x100000000 0x100000000] := by
  decide

end Uffd
